import Mathlib

/-!
Verification of the draughts (checkers) engine.

The embedding below follows src/main.py (class GameState and the module-level
helpers) and src/game/services.py (class DraughtsGame).  The Python board is a
list of lists of small integers; we keep exactly that representation
(Board := List (List Int)) and model the integer Piece enum by its values:
0 = EMPTY, 1 = PLAYER_MAN, 2 = PLAYER_KING, -1 = AI_MAN, -2 = AI_KING.
Mutating methods of GameState are rendered by explicit state passing:
each one consumes a GameState value and returns the updated value, which is
exactly what the in-place mutation computes (deepcopy in the source becomes
ordinary value copying).
-/

set_option autoImplicit false

namespace Draughts

/-- Board: the 8x8 grid, kept as the very same nested-list shape that the
Python code uses (List[List[int]]). -/
abbrev Board := List (List Int)

/-- A square is a (row, column) pair.  Coordinates are integers because the
move generator forms r + dr with dr = -1 before checking bounds. -/
abbrev Square := Int × Int

/-- MoveSeq mirrors the Python alias MoveSeq = List[Tuple[int, int]]. -/
abbrev MoveSeq := List Square

/-- GameState from src/main.py: the canonical board, the side to move
(1 = player, -1 = AI) and the undo history of board snapshots. -/
structure GameState where
  board : Board
  turn : Int
  history : List Board
  deriving DecidableEq, Repr

/-- Reading board[r][c].  Python accesses are made only after an on-board
check (0 <= r < 8 and 0 <= c < 8), so we totalize with defaults; all
theorems below stay inside the guarded range. -/
def pieceAt (b : Board) (r c : Int) : Int :=
  (b.getD r.toNat []).getD c.toNat 0

/-- Writing board[r][c] = v. -/
def setPiece (b : Board) (r c : Int) (v : Int) : Board :=
  b.set r.toNat ((b.getD r.toNat []).set c.toNat v)

/-- GameState._on_board. -/
def onBoard (r c : Int) : Bool :=
  decide (0 ≤ r) && decide (r < 8) && decide (0 ≤ c) && decide (c < 8)

/-- Piece.is_player: positive values belong to the (human) player. -/
def isPlayerPiece (p : Int) : Bool := decide (0 < p)

/-- Piece.is_ai: negative values belong to the AI. -/
def isAiPiece (p : Int) : Bool := decide (p < 0)

/-- Piece.is_man: magnitude 1. -/
def isManPiece (p : Int) : Bool := decide (p.natAbs = 1)

/-- Piece.is_king: magnitude 2. -/
def isKingPiece (p : Int) : Bool := decide (p.natAbs = 2)

/-- GameState._directions_for: a king moves on all four diagonals, any other
value moves on the two forward diagonals of its side (PLAYER_DIR = -1,
AI_DIR = 1). -/
def directionsFor (p : Int) : List (Int × Int) :=
  if isKingPiece p then [(-1, -1), (-1, 1), (1, -1), (1, 1)]
  else
    let d : Int := if isPlayerPiece p then -1 else 1
    [(d, -1), (d, 1)]

/-- The capture guard on the jumped-over square, written as the negation of
the Python skip condition: mid_piece == EMPTY or
(mid_piece.is_player == piece.is_player). -/
def isEnemy (p v : Int) : Bool :=
  !(v == 0 || (isPlayerPiece v == isPlayerPiece p))

/-- GameState._simple_moves_from. -/
def simpleMovesFrom (b : Board) (r c : Int) (p : Int) : List MoveSeq :=
  (directionsFor p).filterMap (fun d =>
    let nr := r + d.1
    let nc := c + d.2
    if onBoard nr nc && pieceAt b nr nc == 0 then some [(r, c), (nr, nc)]
    else none)

/-- The three board writes performed on the deep copy inside
GameState._capture_sequences_from: land the moving piece on the end square,
clear the origin, clear the jumped square (in that order). -/
def jumpBoard (b : Board) (r c midr midc er ec : Int) : Board :=
  setPiece (setPiece (setPiece b er ec (pieceAt b r c)) r c 0) midr midc 0

/-- Number of opposing pieces on the board, the quantity that every
recursive capture step strictly decreases. -/
def enemyCount (b : Board) (p : Int) : Nat :=
  (b.map (fun row => row.countP (fun v => isEnemy p v))).sum

/-- Fuel-indexed rendering of the recursion in
GameState._capture_sequences_from.  The Python function recurses on a copy
of the board from which the jumped piece has been removed, so each call
strictly decreases enemyCount; the fuel makes that recursion structural.
(The visited argument of the Python function is threaded but never
consulted in main.py, so it is omitted.) -/
def capFuel : Nat → Board → Int → Int → Int → List MoveSeq
  | 0, _, _, _, _ => []
  | fuel + 1, b, r, c, p =>
    (directionsFor p).flatMap (fun d =>
      let midr := r + d.1
      let midc := c + d.2
      let er := r + 2 * d.1
      let ec := c + 2 * d.2
      if !onBoard er ec then []
      else if !isEnemy p (pieceAt b midr midc) then []
      else if pieceAt b er ec != 0 then []
      else
        let b2 := jumpBoard b r c midr midc er ec
        let further := capFuel fuel b2 er ec p
        if further.isEmpty then [[(r, c), (er, ec)]]
        else further.map (fun seq => (r, c) :: seq))

/-- GameState._capture_sequences_from: the fuel enemyCount b p + 1 is
always enough, because a capture exists only when an enemy is adjacent and
each recursive call removes one enemy from its copy of the board. -/
def capSeqsFrom (b : Board) (r c : Int) (p : Int) : List MoveSeq :=
  capFuel (enemyCount b p + 1) b r c p

/-- GameState.get_valid_moves. -/
def getValidMoves (s : GameState) (r c : Int) : List MoveSeq :=
  let p := pieceAt s.board r c
  if p == 0 || (s.turn == 1 && isAiPiece p) || (s.turn == -1 && isPlayerPiece p) then []
  else
    let captures := capSeqsFrom s.board r c p
    if !captures.isEmpty then captures
    else simpleMovesFrom s.board r c p

/-- One iteration of the loop in GameState.apply_move_sequence: read the
piece on the step's source square, clear the jumped midpoint when the step
spans two rows, clear the source and land the piece on the destination. -/
def stepBoard (b : Board) (s1 s2 : Square) : Board :=
  let p := pieceAt b s1.1 s1.2
  let b1 := if (s2.1 - s1.1).natAbs == 2 then
      setPiece b ((s1.1 + s2.1) / 2) ((s1.2 + s2.2) / 2) 0
    else b
  setPiece (setPiece b1 s1.1 s1.2 0) s2.1 s2.2 p

/-- The for-loop of GameState.apply_move_sequence over consecutive pairs. -/
def applyLoop (b : Board) : MoveSeq → Board
  | [] => b
  | [_] => b
  | s1 :: s2 :: rest => applyLoop (stepBoard b s1 s2) (s2 :: rest)

/-- The promotion step at the end of GameState.apply_move_sequence: a man
resting on the far rank for its side becomes the corresponding king. -/
def promote (b : Board) (fr fc : Int) : Board :=
  let fp := pieceAt b fr fc
  if isManPiece fp then
    if isPlayerPiece fp && fr == 0 then setPiece b fr fc 2
    else if isAiPiece fp && fr == 7 then setPiece b fr fc (-2)
    else b
  else b

/-- GameState.apply_move_sequence: push a snapshot, run the step loop,
promote on the final square, flip the turn.  (Python reads seq[-1]; a
generated sequence is never empty, and for the empty list we skip the
promotion step.) -/
def applyMoveSequence (s : GameState) (seq : MoveSeq) : GameState :=
  let b1 := applyLoop s.board seq
  let b2 := match seq.getLast? with
    | some f => promote b1 f.1 f.2
    | none => b1
  { board := b2, turn := s.turn * (-1), history := s.history ++ [s.board] }

/-- GameState.undo: pop the most recent snapshot (Python list.pop takes the
last element) and flip the turn back; a no-op on empty history. -/
def undo (s : GameState) : GameState :=
  match s.history.getLast? with
  | some b => { board := b, turn := s.turn * (-1), history := s.history.dropLast }
  | none => s

/-- GameState.status: decided purely by piece counts. -/
def status (s : GameState) : String :=
  let playerPieces : Nat := (s.board.map (fun row => row.countP (fun v => decide (0 < v)))).sum
  let aiPieces : Nat := (s.board.map (fun row => row.countP (fun v => decide (v < 0)))).sum
  if playerPieces = 0 then "AI wins"
  else if aiPieces = 0 then "Player wins"
  else "In progress"

/-- GameState._init_board: zeros everywhere, AI men on the playable squares
of rows 0-2, player men on the playable squares of rows 5-7. -/
def initBoard : Board :=
  (List.range 8).map (fun r =>
    (List.range 8).map (fun c =>
      if r < 3 && (r + c) % 2 == 1 then -1
      else if 5 ≤ r && (r + c) % 2 == 1 then 1
      else 0))

/-- GameState.reset / the freshly constructed GameState. -/
def resetState : GameState :=
  { board := initBoard, turn := 1, history := [] }

/-- The evaluate closure inside GameState.best_ai_move: material sum, sign
+1 for AI pieces, -1 for player pieces, base 5 for kings and 3 otherwise. -/
def evaluate (b : Board) : Int :=
  b.foldl (fun score row =>
    row.foldl (fun score v =>
      if v == 0 then score
      else score + (if isAiPiece v then 1 else -1) * (if isKingPiece v then 5 else 3))
      score)
    0

/-- The per-square guard of both loops in GameState._all_moves_for_turn:
the square holds a piece (not EMPTY) belonging to the side to move. -/
def ownPieceSquare (s : GameState) (r c : Int) : Bool :=
  let p := pieceAt s.board r c
  p != 0 && ((s.turn == 1 && isPlayerPiece p) || (s.turn == -1 && isAiPiece p))

/-- The capture half of GameState._all_moves_for_turn: all capture
sequences of pieces belonging to the side to move, scanned row-major. -/
def capturesList (s : GameState) : List MoveSeq :=
  (List.range 8).flatMap (fun r =>
    (List.range 8).flatMap (fun c =>
      if ownPieceSquare s r c then
        capSeqsFrom s.board r c (pieceAt s.board r c)
      else []))

/-- The simple-move half of GameState._all_moves_for_turn. -/
def simplesList (s : GameState) : List MoveSeq :=
  (List.range 8).flatMap (fun r =>
    (List.range 8).flatMap (fun c =>
      if ownPieceSquare s r c then
        simpleMovesFrom s.board r c (pieceAt s.board r c)
      else []))

/-- GameState._all_moves_for_turn: captures_exist is precisely the
nonemptiness of the collected capture list, and when it holds the simple
moves are not generated at all. -/
def allMovesForTurn (s : GameState) : List MoveSeq :=
  if !(capturesList s).isEmpty then capturesList s else simplesList s

/-- Stand-ins for float('-inf') and float('inf') in best_ai_move: integer
bounds that strictly dominate every material evaluation (which is at most
24 * 5 in magnitude). -/
def NEG_INF : Int := -(10 ^ 9)

/-- See NEG_INF. -/
def POS_INF : Int := 10 ^ 9

/-- Accumulator of the maximizing loop in minimax: running best value,
best move, alpha, and the broken-out-of-the-loop flag. -/
structure MaxAcc where
  maxEval : Int
  best : Option MoveSeq
  alpha : Int
  stopped : Bool

/-- Accumulator of the minimizing loop in minimax. -/
structure MinAcc where
  minEval : Int
  beta : Int
  stopped : Bool

/-- The minimax closure inside GameState.best_ai_move.  Each candidate move
is applied to a copy of the state (deepcopy in Python, plain value copy
here) and the recursion happens on that copy only.  The alpha-beta break is
modeled by the stopped flag, which freezes the fold. -/
def minimax : GameState → Nat → Int → Int → Int × Option MoveSeq
  | s, 0, _, _ => (evaluate s.board, none)
  | s, depthLeft + 1, alpha, beta =>
    if status s ≠ "In progress" then (evaluate s.board, none)
    else if s.turn = -1 then
      let acc := (allMovesForTurn s).foldl (fun (acc : MaxAcc) move =>
        if acc.stopped then acc
        else
          let child := applyMoveSequence s move
          let ev := (minimax child depthLeft acc.alpha beta).1
          let acc1 : MaxAcc :=
            if ev > acc.maxEval then { acc with maxEval := ev, best := some move }
            else acc
          let alpha1 := max acc1.alpha ev
          { acc1 with alpha := alpha1, stopped := decide (beta ≤ alpha1) })
        { maxEval := NEG_INF, best := none, alpha := alpha, stopped := false }
      (acc.maxEval, acc.best)
    else
      let acc := (allMovesForTurn s).foldl (fun (acc : MinAcc) move =>
        if acc.stopped then acc
        else
          let child := applyMoveSequence s move
          let ev := (minimax child depthLeft alpha acc.beta).1
          let acc1 : MinAcc :=
            if ev < acc.minEval then { acc with minEval := ev }
            else acc
          let beta1 := min acc1.beta ev
          { acc1 with beta := beta1, stopped := decide (beta1 ≤ alpha) })
        { minEval := POS_INF, beta := beta, stopped := false }
      (acc.minEval, none)

/-- GameState.best_ai_move, with the session state it leaves behind made
explicit: the method only reads self (minimax works on copies), so the
returned session is the argument itself. -/
def bestAiMove (s : GameState) (depth : Nat) : MoveSeq × GameState :=
  (((minimax s depth NEG_INF POS_INF).2).getD [], s)

/-! Embedding of src/game/services.py (class DraughtsGame). -/

/-- DraughtsGame.make_move, after the string positions have been split into
integer coordinates (the 'row,col' parsing itself is boundary plumbing and
is elided; a parse failure returns the same kind of error dictionary as the
range check).  The result pairs the optional error message with the board
the session holds afterwards. -/
def svcMakeMove (b : Board) (r0 c0 r1 c1 : Int) : Option String × Board :=
  if !(onBoard r0 c0 && onBoard r1 c1) then
    (some "out of range", b)
  else
    let piece := pieceAt b r0 c0
    if piece == 0 then (some "empty origin", b)
    else
      let dr := r1 - r0
      let dc := c1 - c0
      let bA := if dr.natAbs == 2 && dc.natAbs == 2 then
          setPiece b (r0 + dr / 2) (c0 + dc / 2) 0
        else b
      let bB := setPiece (setPiece bA r0 c0 0) r1 c1 piece
      let bC := if piece == 1 && r1 == 0 then setPiece bB r1 c1 3 else bB
      let bD := if piece == 2 && r1 == 7 then setPiece bC r1 c1 4 else bC
      (none, bD)

/-- DraughtsGame.init_board: same layout as initBoard, but with the
services.py encoding P2 = 2 on top and P1 = 1 at the bottom. -/
def svcInitBoard : Board :=
  (List.range 8).map (fun r =>
    (List.range 8).map (fun c =>
      if r < 3 && (r + c) % 2 == 1 then 2
      else if 5 ≤ r && (r + c) % 2 == 1 then 1
      else 0))

/-- The DIAGS table of services.py (P1 = 1, P2 = 2, P1_KING = 3,
P2_KING = 4); values outside the table have no entry, matching the
'piece not in DIAGS' early return of get_valid_moves. -/
def svcDiags (piece : Int) : List (Int × Int) :=
  if piece == 1 then [(-1, -1), (-1, 1)]
  else if piece == 2 then [(1, -1), (1, 1)]
  else if piece == 3 || piece == 4 then [(-1, -1), (-1, 1), (1, -1), (1, 1)]
  else []

/-- The jumped-square test of find_jumps in services.py:
b[rm][cm] not in (EMPTY, piece, piece + 2).  Note that for the kings
(piece = 3 or 4) this excludes only EMPTY, the king itself and a
nonexistent value, so a king's own men still pass the test. -/
def svcJumpable (piece v : Int) : Bool :=
  !(v == 0 || v == piece || v == piece + 2)

/-- The three writes find_jumps performs on its board copy:
nb[r][c], nb[rm][cm], nb[r2][c2] = EMPTY, EMPTY, piece. -/
def svcJumpBoard (b : Board) (r c rm cm r2 c2 piece : Int) : Board :=
  setPiece (setPiece (setPiece b r c 0) rm cm 0) r2 c2 piece

/-- Number of board cells find_jumps would accept as a jumped square for
this mover: values outside {EMPTY, piece, piece + 2}.  Every recursive
call of find_jumps removes one such cell from its copy, so this count
bounds the recursion depth. -/
def jumpableCount (b : Board) (piece : Int) : Nat :=
  (b.map (fun row => row.countP (fun v => svcJumpable piece v))).sum

/-- Fuel-indexed rendering of find_jumps from DraughtsGame.get_valid_moves
(services.py).  The result pairs the found flag the Python function
returns with the list of paths it appends to moves["jumps"], in append
order; the visited set of jump edges becomes a list queried with contains.
The fuel jumpableCount + 1 is always enough because each recursive call
removes the jumped piece from its copy of the board. -/
def svcFindJumps : Nat → Int → Board → Int → Int → List Square →
    List (Int × Int × Int × Int) → Bool × List (List Square)
  | 0, _, _, _, _, _, _ => (false, [])
  | fuel + 1, piece, b, r, c, path, vis =>
    (svcDiags piece).foldl (fun acc d =>
      let rm := r + d.1
      let cm := c + d.2
      let r2 := r + 2 * d.1
      let c2 := c + 2 * d.2
      if onBoard rm cm && onBoard r2 c2 && svcJumpable piece (pieceAt b rm cm) &&
          pieceAt b r2 c2 == 0 && !(vis.contains (rm, cm, r2, c2)) then
        let nb := svcJumpBoard b r c rm cm r2 c2 piece
        let npth := path ++ [(r2, c2)]
        let res := svcFindJumps fuel piece nb r2 c2 npth ((rm, cm, r2, c2) :: vis)
        (true, acc.2 ++ (res.2 ++ (if res.1 then [] else [npth])))
      else acc)
      (false, [])

/-- The top-level call find_jumps(r0, c0, self.board, [], set()) made by
DraughtsGame.get_valid_moves. -/
def svcFindJumpsTop (b : Board) (piece : Int) (r c : Int) : Bool × List (List Square) :=
  svcFindJumps (jumpableCount b piece + 1) piece b r c [] []

/-- The opposing side's piece count under the services.py encoding, as the
claim's words use it: for a P1 man or king the opponents are the P2 men
and kings, and conversely. -/
def svcOpponentCount (b : Board) (piece : Int) : Nat :=
  if piece == 1 || piece == 3 then
    (b.map (fun row => row.countP (fun v => v == 2 || v == 4))).sum
  else
    (b.map (fun row => row.countP (fun v => v == 1 || v == 3))).sum

/-! Spec-side predicates used to state the claims. -/

/-- The board really is an 8x8 grid (the shape _init_board produces and
every caller-supplied snapshot is assumed to have). -/
def boardShape (b : Board) : Prop :=
  b.length = 8 ∧ ∀ row ∈ b, row.length = 8

/-- One step of a capture: a two-square diagonal displacement. -/
def stepIsJump (a b : Square) : Prop :=
  (b.1 - a.1).natAbs = 2 ∧ (b.2 - a.2).natAbs = 2

/-- One step of a simple move: a one-square diagonal displacement. -/
def stepIsSimple (a b : Square) : Prop :=
  (b.1 - a.1).natAbs = 1 ∧ (b.2 - a.2).natAbs = 1

/-- A capture sequence: at least two squares, every consecutive pair a
two-square diagonal jump. -/
def isJumpSeq (seq : MoveSeq) : Prop :=
  2 ≤ seq.length ∧ List.Chain' stepIsJump seq

/-- A simple one-step move: exactly two squares, one diagonal step apart. -/
def isSimpleMove (seq : MoveSeq) : Prop :=
  seq.length = 2 ∧ List.Chain' stepIsSimple seq

/-- No capture is available to piece p standing on (r, c): every direction
fails one of the three jump guards of _capture_sequences_from. -/
def noCaptureFrom (b : Board) (r c p : Int) : Prop :=
  ∀ d ∈ directionsFor p, ¬(onBoard (r + 2 * d.1) (c + 2 * d.2) = true ∧
    isEnemy p (pieceAt b (r + d.1) (c + d.2)) = true ∧
    pieceAt b (r + 2 * d.1) (c + 2 * d.2) = 0)

/-- The midpoints jumped over by a sequence, one per consecutive pair. -/
def midsOf : MoveSeq → List Square
  | a :: b :: rest => ((a.1 + b.1) / 2, (a.2 + b.2) / 2) :: midsOf (b :: rest)
  | _ => []

/-- Some piece of the side to move has a capture somewhere on the board
(the condition _all_moves_for_turn detects with its captures_exist flag). -/
def hasCaptureAnywhere (s : GameState) : Prop :=
  ∃ i : Fin 8, ∃ j : Fin 8,
    pieceAt s.board (i : Nat) (j : Nat) ≠ 0 ∧
    ((s.turn = 1 ∧ isPlayerPiece (pieceAt s.board (i : Nat) (j : Nat)) = true) ∨
      (s.turn = -1 ∧ isAiPiece (pieceAt s.board (i : Nat) (j : Nat)) = true)) ∧
    capSeqsFrom s.board (i : Nat) (j : Nat) (pieceAt s.board (i : Nat) (j : Nat)) ≠ []

/-- Pieces only on playable squares: every on-board square with even
row + column is empty. -/
def playableInv (b : Board) : Prop :=
  ∀ r : Nat, r < 8 → ∀ c : Nat, c < 8 → (r + c) % 2 = 0 → pieceAt b (r : Nat) (c : Nat) = 0

instance (b : Board) : Decidable (boardShape b) :=
  inferInstanceAs (Decidable (b.length = 8 ∧ ∀ row ∈ b, row.length = 8))

instance (a b : Square) : Decidable (stepIsJump a b) :=
  inferInstanceAs (Decidable ((b.1 - a.1).natAbs = 2 ∧ (b.2 - a.2).natAbs = 2))

instance (a b : Square) : Decidable (stepIsSimple a b) :=
  inferInstanceAs (Decidable ((b.1 - a.1).natAbs = 1 ∧ (b.2 - a.2).natAbs = 1))

/-- Executable checker for a chain condition on consecutive squares, used
only to give the chain predicates kernel-reducible Decidable instances. -/
def chainStepsB (f : Square → Square → Bool) : MoveSeq → Bool
  | a :: b :: rest => f a b && chainStepsB f (b :: rest)
  | _ => true

theorem chainStepsB_iff (f : Square → Square → Bool) (R : Square → Square → Prop)
    (hf : ∀ a b, f a b = true ↔ R a b) :
    ∀ seq : MoveSeq, chainStepsB f seq = true ↔ List.Chain' R seq
  | [] => by simp [chainStepsB]
  | [a] => by simp [chainStepsB]
  | a :: b :: rest => by
    rw [show chainStepsB f (a :: b :: rest) = (f a b && chainStepsB f (b :: rest)) from rfl]
    rw [List.chain'_cons, Bool.and_eq_true_iff, hf, chainStepsB_iff f R hf (b :: rest)]

instance (seq : MoveSeq) : Decidable (isJumpSeq seq) :=
  decidable_of_iff
    (2 ≤ seq.length ∧ chainStepsB (fun a b => decide (stepIsJump a b)) seq = true)
    (and_congr_right fun _ =>
      chainStepsB_iff _ stepIsJump (fun a b => by simp) seq)

instance (seq : MoveSeq) : Decidable (isSimpleMove seq) :=
  decidable_of_iff
    (seq.length = 2 ∧ chainStepsB (fun a b => decide (stepIsSimple a b)) seq = true)
    (and_congr_right fun _ =>
      chainStepsB_iff _ stepIsSimple (fun a b => by simp) seq)

instance (b : Board) (r c p : Int) : Decidable (noCaptureFrom b r c p) :=
  inferInstanceAs (Decidable (∀ d ∈ directionsFor p,
    ¬(onBoard (r + 2 * d.1) (c + 2 * d.2) = true ∧
      isEnemy p (pieceAt b (r + d.1) (c + d.2)) = true ∧
      pieceAt b (r + 2 * d.1) (c + 2 * d.2) = 0)))

instance (s : GameState) : Decidable (hasCaptureAnywhere s) :=
  inferInstanceAs (Decidable (∃ i : Fin 8, ∃ j : Fin 8,
    pieceAt s.board (i : Nat) (j : Nat) ≠ 0 ∧
    ((s.turn = 1 ∧ isPlayerPiece (pieceAt s.board (i : Nat) (j : Nat)) = true) ∨
      (s.turn = -1 ∧ isAiPiece (pieceAt s.board (i : Nat) (j : Nat)) = true)) ∧
    capSeqsFrom s.board (i : Nat) (j : Nat) (pieceAt s.board (i : Nat) (j : Nat)) ≠ []))

instance (b : Board) : Decidable (playableInv b) :=
  inferInstanceAs (Decidable (∀ r : Nat, r < 8 → ∀ c : Nat, c < 8 →
    (r + c) % 2 = 0 → pieceAt b (r : Nat) (c : Nat) = 0))

/-! Low-level lemmas about list reads and writes. -/

theorem listGetD_set_ne {α : Type} (v d : α) :
    ∀ (l : List α) (i j : Nat), i ≠ j → (l.set i v).getD j d = l.getD j d := by
  intro l
  induction l with
  | nil => intro i j _; simp
  | cons a t ih =>
    intro i j hij
    cases i with
    | zero =>
      cases j with
      | zero => exact absurd rfl hij
      | succ j => simp
    | succ i =>
      cases j with
      | zero => simp
      | succ j => simpa using ih i j (by omega)

theorem listGetD_set_self {α : Type} (v d : α) :
    ∀ (l : List α) (i : Nat), i < l.length → (l.set i v).getD i d = v := by
  intro l
  induction l with
  | nil => intro i h; simp at h
  | cons a t ih =>
    intro i h
    cases i with
    | zero => simp
    | succ i => simpa using ih i (by simpa using h)

theorem onBoard_iff {r c : Int} :
    onBoard r c = true ↔ 0 ≤ r ∧ r < 8 ∧ 0 ≤ c ∧ c < 8 := by
  simp [onBoard, and_assoc]

theorem pieceAt_setPiece_ne {b : Board} {r c r' c' : Int} {v : Int}
    (h : r.toNat ≠ r'.toNat ∨ c.toNat ≠ c'.toNat) :
    pieceAt (setPiece b r c v) r' c' = pieceAt b r' c' := by
  rcases h with h | h
  · unfold pieceAt setPiece
    rw [listGetD_set_ne _ _ _ _ _ h]
  · unfold pieceAt setPiece
    by_cases hr : r.toNat = r'.toNat
    · rw [← hr]
      by_cases hlen : r.toNat < b.length
      · rw [listGetD_set_self _ _ _ _ hlen, listGetD_set_ne _ _ _ _ _ h]
      · rw [List.set_eq_of_length_le (by omega)]
    · rw [listGetD_set_ne _ _ _ _ _ hr]

theorem listGetD_mem {α : Type} (l : List α) (i : Nat) (d : α) (h : i < l.length) :
    l.getD i d ∈ l := by
  rw [List.getD_eq_getElem?_getD, List.getElem?_eq_getElem h]
  exact List.getElem_mem h

theorem rowLen_of_shape {b : Board} (hsh : boardShape b) {r : Int}
    (h0 : 0 ≤ r) (h8 : r < 8) : (b.getD r.toNat []).length = 8 := by
  have hblen : b.length = 8 := hsh.1
  exact hsh.2 _ (listGetD_mem b r.toNat [] (by omega))

theorem pieceAt_setPiece_self {b : Board} {r c : Int} {v : Int}
    (hsh : boardShape b) (hob : onBoard r c = true) :
    pieceAt (setPiece b r c v) r c = v := by
  obtain ⟨h1, h2, h3, h4⟩ := onBoard_iff.mp hob
  have hblen : b.length = 8 := hsh.1
  have hrow : (b.getD r.toNat []).length = 8 := rowLen_of_shape hsh h1 h2
  unfold pieceAt setPiece
  rw [listGetD_set_self _ _ _ _ (by omega)]
  rw [listGetD_set_self _ _ _ _ (by omega)]

theorem boardShape_setPiece {b : Board} {r c v : Int}
    (hsh : boardShape b) (hob : onBoard r c = true) :
    boardShape (setPiece b r c v) := by
  obtain ⟨h1, h2, h3, h4⟩ := onBoard_iff.mp hob
  have hrow : (b.getD r.toNat []).length = 8 := rowLen_of_shape hsh h1 h2
  constructor
  · simpa [setPiece] using hsh.1
  · intro row hrowmem
    rcases List.mem_or_eq_of_mem_set hrowmem with h | h
    · exact hsh.2 _ h
    · subst h; simpa using hrow

theorem listCountP_set (q : Int → Bool) :
    ∀ (l : List Int) (i : Nat) (v : Int), i < l.length →
      (l.set i v).countP q + (if q (l.getD i 0) then 1 else 0) =
        l.countP q + (if q v then 1 else 0) := by
  intro l
  induction l with
  | nil => intro i v h; simp at h
  | cons a t ih =>
    intro i v h
    cases i with
    | zero =>
      simp only [List.set_cons_zero, List.getD_cons_zero, List.countP_cons]
      omega
    | succ i =>
      simp only [List.set_cons_succ, List.getD_cons_succ, List.countP_cons]
      have := ih i v (by simpa using h)
      omega

theorem sumMap_set (f : List Int → Nat) :
    ∀ (l : List (List Int)) (i : Nat) (x : List Int), i < l.length →
      ((l.set i x).map f).sum + f (l.getD i []) = (l.map f).sum + f x := by
  intro l
  induction l with
  | nil => intro i x h; simp at h
  | cons a t ih =>
    intro i x h
    cases i with
    | zero => simp only [List.set_cons_zero, List.getD_cons_zero, List.map_cons, List.sum_cons]; omega
    | succ i =>
      simp only [List.set_cons_succ, List.getD_cons_succ, List.map_cons, List.sum_cons]
      have := ih i x (by simpa using h)
      omega

theorem enemyCount_setPiece {b : Board} {r c v p : Int}
    (hsh : boardShape b) (hob : onBoard r c = true) :
    enemyCount (setPiece b r c v) p + (if isEnemy p (pieceAt b r c) then 1 else 0) =
      enemyCount b p + (if isEnemy p v then 1 else 0) := by
  obtain ⟨h1, h2, h3, h4⟩ := onBoard_iff.mp hob
  have hblen : b.length = 8 := hsh.1
  have hrow : (b.getD r.toNat []).length = 8 := rowLen_of_shape hsh h1 h2
  unfold enemyCount setPiece pieceAt
  have hb := sumMap_set (fun row => row.countP (fun w => isEnemy p w)) b r.toNat
    ((b.getD r.toNat []).set c.toNat v) (by omega)
  have hr := listCountP_set (fun w => isEnemy p w) (b.getD r.toNat []) c.toNat v (by omega)
  beta_reduce at hb hr ⊢
  omega

theorem enemyCount_pos {b : Board} {r c p : Int}
    (hsh : boardShape b) (hob : onBoard r c = true)
    (h : isEnemy p (pieceAt b r c) = true) : 1 ≤ enemyCount b p := by
  obtain ⟨h1, h2, h3, h4⟩ := onBoard_iff.mp hob
  have hblen : b.length = 8 := hsh.1
  have hrow : (b.getD r.toNat []).length = 8 := rowLen_of_shape hsh h1 h2
  have hrmem : b.getD r.toNat [] ∈ b := listGetD_mem b r.toNat [] (by omega)
  have hcmem : pieceAt b r c ∈ b.getD r.toNat [] :=
    listGetD_mem (b.getD r.toNat []) c.toNat 0 (by omega)
  have hcount : 0 < (b.getD r.toNat []).countP (fun w => isEnemy p w) :=
    List.countP_pos_iff.mpr ⟨_, hcmem, h⟩
  have : (b.getD r.toNat []).countP (fun w => isEnemy p w) ≤ enemyCount b p := by
    unfold enemyCount
    exact List.le_sum_of_mem (List.mem_map_of_mem _ hrmem)
  omega

theorem mem_directionsFor {p : Int} {d : Int × Int} (h : d ∈ directionsFor p) :
    d.1.natAbs = 1 ∧ d.2.natAbs = 1 := by
  unfold directionsFor at h
  split at h <;> simp at h <;> rcases h with h | h | h | h <;> (try subst h) <;> simp_all
  all_goals omega

theorem onBoard_mid {r c dr dc : Int} (hob : onBoard r c = true)
    (hend : onBoard (r + 2 * dr) (c + 2 * dc) = true) :
    onBoard (r + dr) (c + dc) = true := by
  obtain ⟨h1, h2, h3, h4⟩ := onBoard_iff.mp hob
  obtain ⟨h5, h6, h7, h8⟩ := onBoard_iff.mp hend
  exact onBoard_iff.mpr (by constructor <;> omega)

/-! Inversion of the capture recursion. -/

theorem capFuel_succ_mem {f : Nat} {b : Board} {r c p : Int} {seq : MoveSeq}
    (h : seq ∈ capFuel (f + 1) b r c p) :
    ∃ dr dc : Int, (dr, dc) ∈ directionsFor p ∧
      onBoard (r + 2 * dr) (c + 2 * dc) = true ∧
      isEnemy p (pieceAt b (r + dr) (c + dc)) = true ∧
      pieceAt b (r + 2 * dr) (c + 2 * dc) = 0 ∧
      ((capFuel f (jumpBoard b r c (r + dr) (c + dc) (r + 2 * dr) (c + 2 * dc))
          (r + 2 * dr) (c + 2 * dc) p = [] ∧ seq = [(r, c), (r + 2 * dr, c + 2 * dc)]) ∨
        (∃ s2, s2 ∈ capFuel f (jumpBoard b r c (r + dr) (c + dc) (r + 2 * dr) (c + 2 * dc))
            (r + 2 * dr) (c + 2 * dc) p ∧ seq = (r, c) :: s2)) := by
  unfold capFuel at h
  rw [List.mem_flatMap] at h
  obtain ⟨d, hd, hmem⟩ := h
  refine ⟨d.1, d.2, by simpa using hd, ?_⟩
  by_cases hob : onBoard (r + 2 * d.1) (c + 2 * d.2) = true
  case neg =>
    exfalso
    have honb : onBoard (r + 2 * d.1) (c + 2 * d.2) = false := by
      simpa using hob
    simp [honb] at hmem
  simp only [hob, Bool.not_true, Bool.false_eq_true, if_false] at hmem
  by_cases hen : isEnemy p (pieceAt b (r + d.1) (c + d.2)) = true
  case neg =>
    exfalso
    rw [Bool.not_eq_true] at hen
    simp [hen] at hmem
  simp only [hen, Bool.not_true, Bool.false_eq_true, if_false] at hmem
  by_cases hland : pieceAt b (r + 2 * d.1) (c + 2 * d.2) = 0
  case neg =>
    exfalso
    have : (pieceAt b (r + 2 * d.1) (c + 2 * d.2) != 0) = true := by
      simpa using hland
    simp [this] at hmem
  have hland' : (pieceAt b (r + 2 * d.1) (c + 2 * d.2) != 0) = false := by
    simpa using hland
  simp only [hland', Bool.false_eq_true, if_false] at hmem
  refine ⟨hob, hen, hland, ?_⟩
  by_cases hemp : (capFuel f (jumpBoard b r c (r + d.1) (c + d.2) (r + 2 * d.1) (c + 2 * d.2))
      (r + 2 * d.1) (c + 2 * d.2) p).isEmpty = true
  · left
    simp only [hemp, if_true] at hmem
    simp at hmem
    exact ⟨List.isEmpty_iff.mp hemp, hmem⟩
  · right
    simp only [hemp, Bool.false_eq_true, if_false] at hmem
    rw [List.mem_map] at hmem
    obtain ⟨s2, hs2, hseq⟩ := hmem
    exact ⟨s2, hs2, hseq.symm⟩

theorem capFuel_succ_eq_nil_iff {f : Nat} {b : Board} {r c p : Int} :
    capFuel (f + 1) b r c p = [] ↔ noCaptureFrom b r c p := by
  unfold capFuel noCaptureFrom
  rw [List.flatMap_eq_nil_iff]
  constructor
  · intro h d hd
    have hb := h d hd
    rintro ⟨hob, hen, hland⟩
    have hland' : (pieceAt b (r + 2 * d.1) (c + 2 * d.2) != 0) = false := by
      simpa using hland
    simp only [hob, hen, hland', Bool.not_true, Bool.false_eq_true, if_false] at hb
    split at hb
    · simp at hb
    · rename_i hne
      rw [List.map_eq_nil_iff] at hb
      exact hne (by simp [hb])
  · intro h d hd
    have hnd := h d hd
    by_cases hob : onBoard (r + 2 * d.1) (c + 2 * d.2) = true
    case neg =>
      have : (!onBoard (r + 2 * d.1) (c + 2 * d.2)) = true := by
        simpa using hob
      simp only [this, if_true]
    by_cases hen : isEnemy p (pieceAt b (r + d.1) (c + d.2)) = true
    case neg =>
      have : (!isEnemy p (pieceAt b (r + d.1) (c + d.2))) = true := by
        simpa using hen
      simp only [this, if_true, hob, Bool.not_true, Bool.false_eq_true, if_false]
    by_cases hland : pieceAt b (r + 2 * d.1) (c + 2 * d.2) = 0
    · exact absurd ⟨hob, hen, hland⟩ hnd
    · have : (pieceAt b (r + 2 * d.1) (c + 2 * d.2) != 0) = true := by
        simpa using hland
      simp [hob, hen, this]

theorem capSeqsFrom_eq_nil_iff {b : Board} {r c p : Int} :
    capSeqsFrom b r c p = [] ↔ noCaptureFrom b r c p := by
  unfold capSeqsFrom
  exact capFuel_succ_eq_nil_iff

/-- Structural facts about every sequence the capture search can return,
proved for every fuel: it starts at the origin, has at least two squares,
all its steps are two-square diagonal jumps, and (when the origin is on
the board) all its squares are on the board. -/
theorem capFuel_struct : ∀ (f : Nat) (b : Board) (r c p : Int) (seq : MoveSeq),
    seq ∈ capFuel f b r c p →
    seq.head? = some (r, c) ∧ 2 ≤ seq.length ∧ List.Chain' stepIsJump seq ∧
      (onBoard r c = true → ∀ q ∈ seq, onBoard q.1 q.2 = true) := by
  intro f
  induction f with
  | zero => intro b r c p seq h; simp [capFuel] at h
  | succ f ih =>
    intro b r c p seq h
    obtain ⟨dr, dc, hd, hob, hen, hland, hcase⟩ := capFuel_succ_mem h
    obtain ⟨hdr, hdc⟩ := mem_directionsFor hd
    rcases hcase with ⟨_, hseq⟩ | ⟨s2, hs2, hseq⟩
    · subst hseq
      refine ⟨rfl, by simp, ?_, ?_⟩
      · refine List.chain'_cons.mpr ⟨⟨by omega, by omega⟩, by simp⟩
      · intro hob0 q hq
        rcases List.mem_pair.mp hq with h | h <;> subst h
        · exact hob0
        · exact hob
    · obtain ⟨hhead, hlen, hchain, hsq⟩ := ih _ _ _ _ _ hs2
      subst hseq
      refine ⟨rfl, by simp; omega, ?_, ?_⟩
      · cases s2 with
        | nil => simp at hhead
        | cons a rest =>
          have ha : a = (r + 2 * dr, c + 2 * dc) := by simpa using hhead
          subst ha
          exact List.chain'_cons.mpr ⟨⟨by simp; omega, by simp; omega⟩, hchain⟩
      · intro hob0 q hq
        rcases List.mem_cons.mp hq with h | h
        · subst h; exact hob0
        · exact hsq hob q h

theorem setPiece_swap {b : Board} {r1 c1 r2 c2 v1 v2 : Int} (h : r1.toNat ≠ r2.toNat) :
    setPiece (setPiece b r1 c1 v1) r2 c2 v2 = setPiece (setPiece b r2 c2 v2) r1 c1 v1 := by
  unfold setPiece
  rw [listGetD_set_ne _ _ _ _ _ h, listGetD_set_ne _ _ _ _ _ (Ne.symm h)]
  exact List.set_comm _ _ _ h

theorem jumpBoard_spec {b : Board} {r c dr dc : Int} (p : Int)
    (hsh : boardShape b) (hob : onBoard r c = true)
    (hdr : dr.natAbs = 1) (_hdc : dc.natAbs = 1)
    (hobe : onBoard (r + 2 * dr) (c + 2 * dc) = true)
    (hen : isEnemy p (pieceAt b (r + dr) (c + dc)) = true)
    (hland : pieceAt b (r + 2 * dr) (c + 2 * dc) = 0) :
    boardShape (jumpBoard b r c (r + dr) (c + dc) (r + 2 * dr) (c + 2 * dc)) ∧
    enemyCount (jumpBoard b r c (r + dr) (c + dc) (r + 2 * dr) (c + 2 * dc)) p + 1 =
      enemyCount b p ∧
    pieceAt (jumpBoard b r c (r + dr) (c + dc) (r + 2 * dr) (c + 2 * dc))
      (r + 2 * dr) (c + 2 * dc) = pieceAt b r c ∧
    pieceAt (jumpBoard b r c (r + dr) (c + dc) (r + 2 * dr) (c + 2 * dc)) r c = 0 ∧
    pieceAt (jumpBoard b r c (r + dr) (c + dc) (r + 2 * dr) (c + 2 * dc))
      (r + dr) (c + dc) = 0 ∧
    (∀ x y : Int, (x.toNat ≠ r.toNat ∨ y.toNat ≠ c.toNat) →
      (x.toNat ≠ (r + dr).toNat ∨ y.toNat ≠ (c + dc).toNat) →
      (x.toNat ≠ (r + 2 * dr).toNat ∨ y.toNat ≠ (c + 2 * dc).toNat) →
      pieceAt (jumpBoard b r c (r + dr) (c + dc) (r + 2 * dr) (c + 2 * dc)) x y =
        pieceAt b x y) := by
  have hobm : onBoard (r + dr) (c + dc) = true := onBoard_mid hob hobe
  obtain ⟨hr0, hr8, hc0, hc8⟩ := onBoard_iff.mp hob
  obtain ⟨he0, he8, hf0, hf8⟩ := onBoard_iff.mp hobe
  obtain ⟨hm0, hm8, hn0, hn8⟩ := onBoard_iff.mp hobm
  have hrowRM : r.toNat ≠ (r + dr).toNat := by omega
  have hrowRE : r.toNat ≠ (r + 2 * dr).toNat := by omega
  have hrowME : (r + dr).toNat ≠ (r + 2 * dr).toNat := by omega
  unfold jumpBoard
  have hshA : boardShape (setPiece b (r + 2 * dr) (c + 2 * dc) (pieceAt b r c)) :=
    boardShape_setPiece hsh hobe
  have hshB : boardShape (setPiece (setPiece b (r + 2 * dr) (c + 2 * dc) (pieceAt b r c)) r c 0) :=
    boardShape_setPiece hshA hob
  have hshC : boardShape (setPiece (setPiece (setPiece b (r + 2 * dr) (c + 2 * dc)
      (pieceAt b r c)) r c 0) (r + dr) (c + dc) 0) :=
    boardShape_setPiece hshB hobm
  -- the value the origin held, as seen through the first two writes
  have hAatR : pieceAt (setPiece b (r + 2 * dr) (c + 2 * dc) (pieceAt b r c)) r c =
      pieceAt b r c := pieceAt_setPiece_ne (Or.inl (Ne.symm hrowRE))
  have hBatM : pieceAt (setPiece (setPiece b (r + 2 * dr) (c + 2 * dc) (pieceAt b r c)) r c 0)
      (r + dr) (c + dc) = pieceAt b (r + dr) (c + dc) := by
    rw [pieceAt_setPiece_ne (Or.inl hrowRM),
      pieceAt_setPiece_ne (Or.inl (Ne.symm hrowME))]
  refine ⟨hshC, ?_, ?_, ?_, ?_, ?_⟩
  · -- enemy count drops by exactly one: the landing square was empty, the
    -- origin value merely moves, and the jumped enemy is cleared
    have e1 := enemyCount_setPiece (v := pieceAt b r c) (p := p) hsh hobe
    have e2 := enemyCount_setPiece (v := (0 : Int)) (p := p) hshA hob
    have e3 := enemyCount_setPiece (v := (0 : Int)) (p := p) hshB hobm
    rw [hland] at e1
    rw [hAatR] at e2
    rw [hBatM] at e3
    have hz : isEnemy p 0 = false := by simp [isEnemy]
    rw [hz] at e1 e2 e3
    rw [hen] at e3
    simp only [Bool.false_eq_true, if_false, if_true] at e1 e2 e3
    omega
  · rw [pieceAt_setPiece_ne (Or.inl hrowME),
      pieceAt_setPiece_ne (Or.inl hrowRE),
      pieceAt_setPiece_self hsh hobe]
  · rw [pieceAt_setPiece_ne (Or.inl (Ne.symm hrowRM)), pieceAt_setPiece_self hshA hob]
  · rw [pieceAt_setPiece_self hshB hobm]
  · intro x y hxr hxm hxe
    rw [pieceAt_setPiece_ne (hxm.imp Ne.symm Ne.symm),
      pieceAt_setPiece_ne (hxr.imp Ne.symm Ne.symm),
      pieceAt_setPiece_ne (hxe.imp Ne.symm Ne.symm)]

/-- Workhorse inversion: a sequence produced by _capture_sequences_from on a
well-shaped board decomposes into a first jump in some legal direction and a
recursive tail over the board with that jump applied; the fuel bookkeeping
disappears because the jump removes exactly one enemy. -/
theorem mem_capSeqsFrom_inv {b : Board} {r c p : Int} {seq : MoveSeq}
    (hsh : boardShape b) (hob : onBoard r c = true)
    (h : seq ∈ capSeqsFrom b r c p) :
    ∃ dr dc : Int, (dr, dc) ∈ directionsFor p ∧ dr.natAbs = 1 ∧ dc.natAbs = 1 ∧
      onBoard (r + 2 * dr) (c + 2 * dc) = true ∧
      onBoard (r + dr) (c + dc) = true ∧
      isEnemy p (pieceAt b (r + dr) (c + dc)) = true ∧
      pieceAt b (r + 2 * dr) (c + 2 * dc) = 0 ∧
      boardShape (jumpBoard b r c (r + dr) (c + dc) (r + 2 * dr) (c + 2 * dc)) ∧
      enemyCount (jumpBoard b r c (r + dr) (c + dc) (r + 2 * dr) (c + 2 * dc)) p + 1 =
        enemyCount b p ∧
      pieceAt (jumpBoard b r c (r + dr) (c + dc) (r + 2 * dr) (c + 2 * dc))
        (r + 2 * dr) (c + 2 * dc) = pieceAt b r c ∧
      pieceAt (jumpBoard b r c (r + dr) (c + dc) (r + 2 * dr) (c + 2 * dc)) r c = 0 ∧
      pieceAt (jumpBoard b r c (r + dr) (c + dc) (r + 2 * dr) (c + 2 * dc))
        (r + dr) (c + dc) = 0 ∧
      ((capSeqsFrom (jumpBoard b r c (r + dr) (c + dc) (r + 2 * dr) (c + 2 * dc))
          (r + 2 * dr) (c + 2 * dc) p = [] ∧ seq = [(r, c), (r + 2 * dr, c + 2 * dc)]) ∨
        (∃ s2, s2 ∈ capSeqsFrom (jumpBoard b r c (r + dr) (c + dc) (r + 2 * dr) (c + 2 * dc))
            (r + 2 * dr) (c + 2 * dc) p ∧ seq = (r, c) :: s2)) := by
  obtain ⟨dr, dc, hd, hobe, hen, hland, hcase⟩ := capFuel_succ_mem h
  obtain ⟨hdr, hdc⟩ := mem_directionsFor hd
  obtain ⟨hsh2, hcnt, hcarry, horig, hmid, _⟩ :=
    jumpBoard_spec p hsh hob hdr hdc hobe hen hland
  refine ⟨dr, dc, hd, hdr, hdc, hobe, onBoard_mid hob hobe, hen, hland, hsh2, hcnt,
    hcarry, horig, hmid, ?_⟩
  have hfuel : enemyCount b p =
      enemyCount (jumpBoard b r c (r + dr) (c + dc) (r + 2 * dr) (c + 2 * dc)) p + 1 :=
    hcnt.symm
  have hcap : capSeqsFrom (jumpBoard b r c (r + dr) (c + dc) (r + 2 * dr) (c + 2 * dc))
      (r + 2 * dr) (c + 2 * dc) p =
      capFuel (enemyCount b p) (jumpBoard b r c (r + dr) (c + dc) (r + 2 * dr) (c + 2 * dc))
        (r + 2 * dr) (c + 2 * dc) p := by
    rw [hfuel]; rfl
  rw [hcap]
  exact hcase

/-- Inside a capture chain, one iteration of the apply_move_sequence loop
performs exactly the three writes the capture recursion performed on its
board copy (the two orders of distinct-cell writes commute). -/
theorem stepBoard_eq_jumpBoard {b : Board} {r c dr dc : Int}
    (hob : onBoard r c = true) (hobe : onBoard (r + 2 * dr) (c + 2 * dc) = true)
    (hdr : dr.natAbs = 1) (_hdc : dc.natAbs = 1) :
    stepBoard b (r, c) (r + 2 * dr, c + 2 * dc) =
      jumpBoard b r c (r + dr) (c + dc) (r + 2 * dr) (c + 2 * dc) := by
  have hobm : onBoard (r + dr) (c + dc) = true := onBoard_mid hob hobe
  obtain ⟨hr0, hr8, hc0, hc8⟩ := onBoard_iff.mp hob
  obtain ⟨he0, he8, hf0, hf8⟩ := onBoard_iff.mp hobe
  obtain ⟨hm0, hm8, hn0, hn8⟩ := onBoard_iff.mp hobm
  have hrowMR : (r + dr).toNat ≠ r.toNat := by omega
  have hrowME : (r + dr).toNat ≠ (r + 2 * dr).toNat := by omega
  have hrowRE : r.toNat ≠ (r + 2 * dr).toNat := by omega
  have habs : ((r + 2 * dr) - r).natAbs = 2 := by omega
  have hmidr : (r + (r + 2 * dr)) / 2 = r + dr := by omega
  have hmidc : (c + (c + 2 * dc)) / 2 = c + dc := by omega
  unfold stepBoard jumpBoard
  simp only [habs, hmidr, hmidc, beq_self_eq_true, if_true]
  rw [setPiece_swap hrowMR]
  rw [setPiece_swap hrowME]
  rw [setPiece_swap hrowRE]

theorem capSeqsFrom_struct {b : Board} {r c p : Int} {seq : MoveSeq}
    (h : seq ∈ capSeqsFrom b r c p) :
    seq.head? = some (r, c) ∧ 2 ≤ seq.length ∧ List.Chain' stepIsJump seq ∧
      (onBoard r c = true → ∀ q ∈ seq, onBoard q.1 q.2 = true) :=
  capFuel_struct _ b r c p seq h

/-- The availability of a capture from (x, y) never depends on the content
of (x, y) itself, so rewriting the origin square preserves having none. -/
theorem noCaptureFrom_setPiece_origin {b : Board} {x y k p : Int}
    (hob : onBoard x y = true) (h : noCaptureFrom b x y p) :
    noCaptureFrom (setPiece b x y k) x y p := by
  intro d hd
  obtain ⟨hd1, hd2⟩ := mem_directionsFor hd
  rintro ⟨he, hen, hld⟩
  have hobm : onBoard (x + d.1) (y + d.2) = true := onBoard_mid hob he
  obtain ⟨hx0, hx8, hy0, hy8⟩ := onBoard_iff.mp hob
  obtain ⟨he0, he8, hf0, hf8⟩ := onBoard_iff.mp he
  obtain ⟨hm0, hm8, hn0, hn8⟩ := onBoard_iff.mp hobm
  rw [pieceAt_setPiece_ne (Or.inl (by omega : x.toNat ≠ (x + d.1).toNat))] at hen
  rw [pieceAt_setPiece_ne (Or.inl (by omega : x.toNat ≠ (x + 2 * d.1).toNat))] at hld
  exact h d hd ⟨he, hen, hld⟩

theorem noCaptureFrom_promote {b : Board} {x y p : Int}
    (hob : onBoard x y = true) (h : noCaptureFrom b x y p) :
    noCaptureFrom (promote b x y) x y p := by
  unfold promote
  dsimp only
  split_ifs <;>
    first
      | exact h
      | exact noCaptureFrom_setPiece_origin hob h

/-- Main lemma about applying a generated capture chain: the step loop of
apply_move_sequence reproduces exactly the boards of the capture recursion,
so the chain ends on an on-board square still holding the moving piece's
original value, and (even after the final promotion) that piece has no
further capture from the landing square. -/
theorem capSeqs_apply : ∀ (n : Nat) (b : Board) (r c p : Int) (seq : MoveSeq),
    enemyCount b p = n → boardShape b → onBoard r c = true →
    seq ∈ capSeqsFrom b r c p →
    ∃ fr fc : Int, seq.getLast? = some (fr, fc) ∧ onBoard fr fc = true ∧
      boardShape (applyLoop b seq) ∧
      pieceAt (applyLoop b seq) fr fc = pieceAt b r c ∧
      capSeqsFrom (promote (applyLoop b seq) fr fc) fr fc p = [] := by
  intro n
  induction n using Nat.strong_induction_on with
  | _ n ih =>
    intro b r c p seq hn hsh hob hmem
    obtain ⟨dr, dc, hd, hdr, hdc, hobe, hobm, hen, hland, hsh2, hcnt, hcarry, horig, hmid,
      hcase⟩ := mem_capSeqsFrom_inv hsh hob hmem
    rcases hcase with ⟨hnil, hseq⟩ | ⟨s2, hs2, hseq⟩
    · subst hseq
      have hstep : applyLoop b [(r, c), (r + 2 * dr, c + 2 * dc)] =
          jumpBoard b r c (r + dr) (c + dc) (r + 2 * dr) (c + 2 * dc) := by
        show stepBoard b (r, c) (r + 2 * dr, c + 2 * dc) = _
        exact stepBoard_eq_jumpBoard hob hobe hdr hdc
      refine ⟨r + 2 * dr, c + 2 * dc, rfl, hobe, ?_, ?_, ?_⟩
      · rw [hstep]; exact hsh2
      · rw [hstep]; exact hcarry
      · rw [hstep]
        exact capSeqsFrom_eq_nil_iff.mpr
          (noCaptureFrom_promote hobe (capSeqsFrom_eq_nil_iff.mp hnil))
    · subst hseq
      have hlt : enemyCount (jumpBoard b r c (r + dr) (c + dc)
          (r + 2 * dr) (c + 2 * dc)) p < n := by omega
      obtain ⟨fr, fc, hlast, hobf, hshL, hcarryL, hmaxL⟩ :=
        ih _ hlt _ (r + 2 * dr) (c + 2 * dc) p s2 rfl hsh2 hobe hs2
      have hhead : s2.head? = some (r + 2 * dr, c + 2 * dc) := (capSeqsFrom_struct hs2).1
      cases s2 with
      | nil => simp at hhead
      | cons a rest =>
        have ha : a = (r + 2 * dr, c + 2 * dc) := by simpa using hhead
        subst ha
        have hloop : applyLoop b ((r, c) :: (r + 2 * dr, c + 2 * dc) :: rest) =
            applyLoop (jumpBoard b r c (r + dr) (c + dc) (r + 2 * dr) (c + 2 * dc))
              ((r + 2 * dr, c + 2 * dc) :: rest) := by
          show applyLoop (stepBoard b (r, c) (r + 2 * dr, c + 2 * dc)) _ = _
          rw [stepBoard_eq_jumpBoard hob hobe hdr hdc]
        refine ⟨fr, fc, ?_, hobf, ?_, ?_, ?_⟩
        · rw [List.getLast?_cons_cons]; exact hlast
        · rw [hloop]; exact hshL
        · rw [hloop, hcarryL]; exact hcarry
        · rw [hloop]; exact hmaxL

theorem midsOf_cons_cons (a b : Square) (rest : MoveSeq) :
    midsOf (a :: b :: rest) = ((a.1 + b.1) / 2, (a.2 + b.2) / 2) :: midsOf (b :: rest) := rfl

theorem pieceAt_congrCell {b : Board} {x y x' y' : Int}
    (hx : x.toNat = x'.toNat) (hy : y.toNat = y'.toNat) :
    pieceAt b x y = pieceAt b x' y' := by
  unfold pieceAt
  rw [hx, hy]

/-- Second main lemma about capture chains: a chain over a board whose
origin does not hold an enemy piece captures at most enemyCount pieces
(bounding its length and hence the recursion depth), each jumped square is
an on-board enemy of the moving side, and no square is jumped twice. -/
theorem capSeqs_mids : ∀ (n : Nat) (b : Board) (r c p : Int) (seq : MoveSeq),
    enemyCount b p = n → boardShape b → onBoard r c = true →
    isEnemy p (pieceAt b r c) = false →
    seq ∈ capSeqsFrom b r c p →
    seq.length ≤ enemyCount b p + 1 ∧
      (∀ m ∈ midsOf seq, onBoard m.1 m.2 = true ∧ isEnemy p (pieceAt b m.1 m.2) = true) ∧
      (midsOf seq).Nodup := by
  intro n
  induction n using Nat.strong_induction_on with
  | _ n ih =>
    intro b r c p seq hn hsh hob hor hmem
    obtain ⟨dr, dc, hd, hdr, hdc, hobe, hobm, hen, hland, hsh2, hcnt, hcarry, horig, hmid,
      hcase⟩ := mem_capSeqsFrom_inv hsh hob hmem
    have hone : 1 ≤ enemyCount b p := enemyCount_pos hsh hobm hen
    have hmidr : (r + (r + 2 * dr)) / 2 = r + dr := by omega
    have hmidc : (c + (c + 2 * dc)) / 2 = c + dc := by omega
    rcases hcase with ⟨_, hseq⟩ | ⟨s2, hs2, hseq⟩
    · subst hseq
      have hmids : midsOf [(r, c), (r + 2 * dr, c + 2 * dc)] = [(r + dr, c + dc)] := by
        unfold midsOf midsOf
        rw [hmidr, hmidc]
      rw [hmids]
      refine ⟨by simp; omega, ?_, by simp⟩
      intro m hm
      rw [List.mem_singleton] at hm
      subst hm
      exact ⟨hobm, hen⟩
    · subst hseq
      have hlt : enemyCount (jumpBoard b r c (r + dr) (c + dc)
          (r + 2 * dr) (c + 2 * dc)) p < n := by omega
      have hor2 : isEnemy p (pieceAt (jumpBoard b r c (r + dr) (c + dc)
          (r + 2 * dr) (c + 2 * dc)) (r + 2 * dr) (c + 2 * dc)) = false := by
        rw [hcarry]; exact hor
      obtain ⟨hlen2, hmids2, hnd2⟩ :=
        ih _ hlt _ (r + 2 * dr) (c + 2 * dc) p s2 rfl hsh2 hobe hor2 hs2
      have hhead : s2.head? = some (r + 2 * dr, c + 2 * dc) := (capSeqsFrom_struct hs2).1
      obtain ⟨_, _, _, _, _, hframe⟩ := jumpBoard_spec p hsh hob hdr hdc hobe hen hland
      have hzero : isEnemy p 0 = false := by simp [isEnemy]
      cases s2 with
      | nil => simp at hhead
      | cons a rest =>
        have ha : a = (r + 2 * dr, c + 2 * dc) := by simpa using hhead
        subst ha
        have hmids : midsOf ((r, c) :: (r + 2 * dr, c + 2 * dc) :: rest) =
            (r + dr, c + dc) :: midsOf ((r + 2 * dr, c + 2 * dc) :: rest) := by
          rw [midsOf_cons_cons]
          dsimp only
          rw [hmidr, hmidc]
        rw [hmids]
        refine ⟨by simp at hlen2 ⊢; omega, ?_, ?_⟩
        · intro m hm
          rcases List.mem_cons.mp hm with hm | hm
          · subst hm; exact ⟨hobm, hen⟩
          · obtain ⟨hmob, hmen⟩ := hmids2 m hm
            refine ⟨hmob, ?_⟩
            -- m holds an enemy on the jumped board, so its cell is none of
            -- the three rewritten cells; the frame property transfers it back
            have hnotr : m.1.toNat ≠ r.toNat ∨ m.2.toNat ≠ c.toNat := by
              by_contra hcon
              push_neg at hcon
              rw [pieceAt_congrCell hcon.1 hcon.2, horig, hzero] at hmen
              exact Bool.false_ne_true hmen
            have hnotm : m.1.toNat ≠ (r + dr).toNat ∨ m.2.toNat ≠ (c + dc).toNat := by
              by_contra hcon
              push_neg at hcon
              rw [pieceAt_congrCell hcon.1 hcon.2, hmid, hzero] at hmen
              exact Bool.false_ne_true hmen
            have hnote : m.1.toNat ≠ (r + 2 * dr).toNat ∨ m.2.toNat ≠ (c + 2 * dc).toNat := by
              by_contra hcon
              push_neg at hcon
              rw [pieceAt_congrCell hcon.1 hcon.2, hcarry] at hmen
              rw [hor] at hmen
              exact Bool.false_ne_true hmen
            rw [← hframe m.1 m.2 hnotr hnotm hnote]
            exact hmen
        · refine List.nodup_cons.mpr ⟨?_, hnd2⟩
          intro hin
          have := (hmids2 _ hin).2
          rw [hmid, hzero] at this
          exact Bool.false_ne_true this

/-! Inversion of the move-list scans. -/

theorem mem_simpleMovesFrom {b : Board} {r c p : Int} {seq : MoveSeq}
    (h : seq ∈ simpleMovesFrom b r c p) :
    ∃ dr dc : Int, (dr, dc) ∈ directionsFor p ∧
      seq = [(r, c), (r + dr, c + dc)] ∧
      onBoard (r + dr) (c + dc) = true ∧ pieceAt b (r + dr) (c + dc) = 0 := by
  unfold simpleMovesFrom at h
  rw [List.mem_filterMap] at h
  obtain ⟨d, hd, hsome⟩ := h
  by_cases hcond : (onBoard (r + d.1) (c + d.2) && (pieceAt b (r + d.1) (c + d.2) == 0)) = true
  · rw [if_pos hcond] at hsome
    obtain ⟨hob, hz⟩ := Bool.and_eq_true_iff.mp hcond
    refine ⟨d.1, d.2, by simpa using hd, ?_, hob, by simpa using hz⟩
    have := Option.some.inj hsome
    exact this.symm
  · rw [if_neg hcond] at hsome
    simp at hsome

theorem mem_capturesList {s : GameState} {seq : MoveSeq} :
    seq ∈ capturesList s ↔
      ∃ r : Nat, r < 8 ∧ ∃ c : Nat, c < 8 ∧ ownPieceSquare s r c = true ∧
        seq ∈ capSeqsFrom s.board r c (pieceAt s.board r c) := by
  unfold capturesList
  simp only [List.mem_flatMap, List.mem_range]
  constructor
  · rintro ⟨r, hr, c, hc, hmem⟩
    by_cases hcond : ownPieceSquare s r c = true
    · rw [if_pos hcond] at hmem
      exact ⟨r, hr, c, hc, hcond, hmem⟩
    · rw [if_neg hcond] at hmem
      simp at hmem
  · rintro ⟨r, hr, c, hc, hcond, hmem⟩
    exact ⟨r, hr, c, hc, by rw [if_pos hcond]; exact hmem⟩

theorem mem_simplesList {s : GameState} {seq : MoveSeq} :
    seq ∈ simplesList s ↔
      ∃ r : Nat, r < 8 ∧ ∃ c : Nat, c < 8 ∧ ownPieceSquare s r c = true ∧
        seq ∈ simpleMovesFrom s.board r c (pieceAt s.board r c) := by
  unfold simplesList
  simp only [List.mem_flatMap, List.mem_range]
  constructor
  · rintro ⟨r, hr, c, hc, hmem⟩
    by_cases hcond : ownPieceSquare s r c = true
    · rw [if_pos hcond] at hmem
      exact ⟨r, hr, c, hc, hcond, hmem⟩
    · rw [if_neg hcond] at hmem
      simp at hmem
  · rintro ⟨r, hr, c, hc, hcond, hmem⟩
    exact ⟨r, hr, c, hc, by rw [if_pos hcond]; exact hmem⟩

theorem capturesList_ne_nil_iff {s : GameState} :
    capturesList s ≠ [] ↔ hasCaptureAnywhere s := by
  constructor
  · intro h
    obtain ⟨seq, hseq⟩ := List.exists_mem_of_ne_nil _ h
    obtain ⟨r, hr, c, hc, hcond, hmem⟩ := mem_capturesList.mp hseq
    obtain ⟨hp, hside⟩ := Bool.and_eq_true_iff.mp hcond
    refine ⟨⟨r, hr⟩, ⟨c, hc⟩, by simpa using hp, ?_, List.ne_nil_of_mem hmem⟩
    rcases Bool.or_eq_true_iff.mp hside with hside | hside <;>
      obtain ⟨ht, hq⟩ := Bool.and_eq_true_iff.mp hside
    · exact Or.inl ⟨by simpa using ht, hq⟩
    · exact Or.inr ⟨by simpa using ht, hq⟩
  · rintro ⟨i, j, hp, hside, hcap⟩
    obtain ⟨seq, hseq⟩ := List.exists_mem_of_ne_nil _ hcap
    have hcond : ownPieceSquare s (i : Nat) (j : Nat) = true := by
      unfold ownPieceSquare
      refine Bool.and_eq_true_iff.mpr ⟨by simpa using hp, ?_⟩
      rcases hside with ⟨ht, hq⟩ | ⟨ht, hq⟩
      · exact Bool.or_eq_true_iff.mpr (Or.inl (Bool.and_eq_true_iff.mpr ⟨by simpa using ht, hq⟩))
      · exact Bool.or_eq_true_iff.mpr (Or.inr (Bool.and_eq_true_iff.mpr ⟨by simpa using ht, hq⟩))
    exact List.ne_nil_of_mem (mem_capturesList.mpr ⟨i, i.isLt, j, j.isLt, hcond, hseq⟩)

theorem mem_allMovesForTurn {s : GameState} {seq : MoveSeq}
    (h : seq ∈ allMovesForTurn s) :
    ∃ r : Nat, r < 8 ∧ ∃ c : Nat, c < 8 ∧ ownPieceSquare s r c = true ∧
      (seq ∈ capSeqsFrom s.board r c (pieceAt s.board r c) ∨
        seq ∈ simpleMovesFrom s.board r c (pieceAt s.board r c)) := by
  unfold allMovesForTurn at h
  split_ifs at h
  · obtain ⟨r, hr, c, hc, hcond, hmem⟩ := mem_capturesList.mp h
    exact ⟨r, hr, c, hc, hcond, Or.inl hmem⟩
  · obtain ⟨r, hr, c, hc, hcond, hmem⟩ := mem_simplesList.mp h
    exact ⟨r, hr, c, hc, hcond, Or.inr hmem⟩

/-! Termination measure of services.py's find_jumps. -/

theorem mem_svcDiags {piece : Int} {d : Int × Int} (h : d ∈ svcDiags piece) :
    d.1.natAbs = 1 ∧ d.2.natAbs = 1 := by
  unfold svcDiags at h
  split_ifs at h
  · simp at h; rcases h with h | h <;> subst h <;> exact ⟨rfl, rfl⟩
  · simp at h; rcases h with h | h <;> subst h <;> exact ⟨rfl, rfl⟩
  · simp at h; rcases h with h | h | h | h <;> subst h <;> exact ⟨rfl, rfl⟩
  · simp at h

theorem sumCountP_setPiece (q : Int → Bool) {b : Board} {r c : Int} (v : Int)
    (hsh : boardShape b) (hob : onBoard r c = true) :
    ((setPiece b r c v).map (fun row => row.countP q)).sum +
      (if q (pieceAt b r c) then 1 else 0) =
    (b.map (fun row => row.countP q)).sum + (if q v then 1 else 0) := by
  obtain ⟨h1, h2, h3, h4⟩ := onBoard_iff.mp hob
  have hblen : b.length = 8 := hsh.1
  have hrow : (b.getD r.toNat []).length = 8 := rowLen_of_shape hsh h1 h2
  unfold setPiece pieceAt
  have hb := sumMap_set (fun row => row.countP q) b r.toNat
    ((b.getD r.toNat []).set c.toNat v) (by omega)
  have hr := listCountP_set q (b.getD r.toNat []) c.toNat v (by omega)
  beta_reduce at hb hr ⊢
  omega

theorem sumCountP_pos (q : Int → Bool) {b : Board} {r c : Int}
    (hsh : boardShape b) (hob : onBoard r c = true)
    (h : q (pieceAt b r c) = true) :
    1 ≤ (b.map (fun row => row.countP q)).sum := by
  obtain ⟨h1, h2, h3, h4⟩ := onBoard_iff.mp hob
  have hblen : b.length = 8 := hsh.1
  have hrow : (b.getD r.toNat []).length = 8 := rowLen_of_shape hsh h1 h2
  have hrmem : b.getD r.toNat [] ∈ b := listGetD_mem b r.toNat [] (by omega)
  have hcmem : pieceAt b r c ∈ b.getD r.toNat [] :=
    listGetD_mem (b.getD r.toNat []) c.toNat 0 (by omega)
  have hcount : 0 < (b.getD r.toNat []).countP q :=
    List.countP_pos_iff.mpr ⟨_, hcmem, h⟩
  have hle : (b.getD r.toNat []).countP q ≤ (b.map (fun row => row.countP q)).sum :=
    List.le_sum_of_mem (List.mem_map_of_mem _ hrmem)
  omega

theorem jumpableCount_svcJumpBoard {b : Board} {r c dr dc piece : Int}
    (hsh : boardShape b) (hob : onBoard r c = true) (hdr : dr.natAbs = 1)
    (hobm : onBoard (r + dr) (c + dc) = true)
    (hobe : onBoard (r + 2 * dr) (c + 2 * dc) = true)
    (hjm : svcJumpable piece (pieceAt b (r + dr) (c + dc)) = true)
    (hland : pieceAt b (r + 2 * dr) (c + 2 * dc) = 0) :
    boardShape (svcJumpBoard b r c (r + dr) (c + dc) (r + 2 * dr) (c + 2 * dc) piece) ∧
    jumpableCount (svcJumpBoard b r c (r + dr) (c + dc) (r + 2 * dr) (c + 2 * dc) piece)
        piece + 1 ≤ jumpableCount b piece := by
  obtain ⟨hr0, hr8, hc0, hc8⟩ := onBoard_iff.mp hob
  obtain ⟨hm0, hm8, hn0, hn8⟩ := onBoard_iff.mp hobm
  obtain ⟨he0, he8, hf0, hf8⟩ := onBoard_iff.mp hobe
  have hrowRM : r.toNat ≠ (r + dr).toNat := by omega
  have hrowRE : r.toNat ≠ (r + 2 * dr).toNat := by omega
  have hrowME : (r + dr).toNat ≠ (r + 2 * dr).toNat := by omega
  have hq0 : svcJumpable piece 0 = false := by simp [svcJumpable]
  have hqp : svcJumpable piece piece = false := by simp [svcJumpable]
  have hsh1 : boardShape (setPiece b r c 0) := boardShape_setPiece hsh hob
  have hsh2 : boardShape (setPiece (setPiece b r c 0) (r + dr) (c + dc) 0) :=
    boardShape_setPiece hsh1 hobm
  have hsh3 : boardShape (svcJumpBoard b r c (r + dr) (c + dc)
      (r + 2 * dr) (c + 2 * dc) piece) := boardShape_setPiece hsh2 hobe
  refine ⟨hsh3, ?_⟩
  have e1 := sumCountP_setPiece (fun v => svcJumpable piece v) (0 : Int) hsh hob
  have h1m : pieceAt (setPiece b r c 0) (r + dr) (c + dc) = pieceAt b (r + dr) (c + dc) :=
    pieceAt_setPiece_ne (Or.inl hrowRM)
  have e2 := sumCountP_setPiece (fun v => svcJumpable piece v) (0 : Int) hsh1 hobm
  rw [h1m] at e2
  have h2e : pieceAt (setPiece (setPiece b r c 0) (r + dr) (c + dc) 0)
      (r + 2 * dr) (c + 2 * dc) = pieceAt b (r + 2 * dr) (c + 2 * dc) := by
    rw [pieceAt_setPiece_ne (Or.inl hrowME), pieceAt_setPiece_ne (Or.inl hrowRE)]
  have e3 := sumCountP_setPiece (fun v => svcJumpable piece v) piece hsh2 hobe
  rw [h2e, hland] at e3
  beta_reduce at e1 e2 e3
  rw [hjm] at e2
  rw [hq0] at e1 e2 e3
  rw [hqp] at e3
  have hjc : ∀ b' : Board, jumpableCount b' piece =
      (b'.map (fun row => row.countP (fun v => svcJumpable piece v))).sum :=
    fun b' => rfl
  rw [hjc, hjc]
  unfold svcJumpBoard
  simp only [Bool.false_eq_true, if_false, if_true] at e1 e2 e3
  have hXle : (if svcJumpable piece (pieceAt b r c) = true then 1 else 0) ≤ 1 := by
    split <;> omega
  omega

theorem foldl_inv {α β : Type} (C : β → Prop) (step : β → α → β) :
    ∀ (l : List α) (init : β), C init →
      (∀ acc, C acc → ∀ d ∈ l, C (step acc d)) → C (l.foldl step init) := by
  intro l
  induction l with
  | nil => intro init h _; simpa using h
  | cons d ds ih =>
    intro init hinit hstep
    rw [List.foldl_cons]
    exact ih (step init d) (hstep init hinit d (List.mem_cons_self d ds))
      (fun acc hacc e he => hstep acc hacc e (List.mem_cons_of_mem d he))

/-- Depth bound for find_jumps: every path the recursion records extends
the incoming path by at most the number of jumpable cells, because each
recursive call removes the jumped piece (jumpable by the guard) from its
board copy and lands the mover (never jumpable) on a formerly empty
square. -/
theorem svcFindJumps_length : ∀ (fuel : Nat) (piece : Int) (b : Board) (r c : Int)
    (path : List Square) (vis : List (Int × Int × Int × Int)),
    boardShape b → onBoard r c = true →
    ∀ js ∈ (svcFindJumps fuel piece b r c path vis).2,
      js.length ≤ path.length + jumpableCount b piece := by
  intro fuel
  induction fuel with
  | zero =>
    intro piece b r c path vis _ _ js hjs
    simp [svcFindJumps] at hjs
  | succ fuel ih =>
    intro piece b r c path vis hsh hob js hjs
    have hP : ∀ js2 ∈ ((svcDiags piece).foldl (fun (acc : Bool × List (List Square)) d =>
        if onBoard (r + d.1) (c + d.2) && onBoard (r + 2 * d.1) (c + 2 * d.2) &&
            svcJumpable piece (pieceAt b (r + d.1) (c + d.2)) &&
            (pieceAt b (r + 2 * d.1) (c + 2 * d.2) == 0) &&
            !(vis.contains (r + d.1, c + d.2, r + 2 * d.1, c + 2 * d.2)) then
          (true, acc.2 ++
            ((svcFindJumps fuel piece
                (svcJumpBoard b r c (r + d.1) (c + d.2) (r + 2 * d.1) (c + 2 * d.2) piece)
                (r + 2 * d.1) (c + 2 * d.2) (path ++ [(r + 2 * d.1, c + 2 * d.2)])
                ((r + d.1, c + d.2, r + 2 * d.1, c + 2 * d.2) :: vis)).2 ++
              (if (svcFindJumps fuel piece
                  (svcJumpBoard b r c (r + d.1) (c + d.2) (r + 2 * d.1) (c + 2 * d.2) piece)
                  (r + 2 * d.1) (c + 2 * d.2) (path ++ [(r + 2 * d.1, c + 2 * d.2)])
                  ((r + d.1, c + d.2, r + 2 * d.1, c + 2 * d.2) :: vis)).1 then []
                else [path ++ [(r + 2 * d.1, c + 2 * d.2)]])))
        else acc) ((false : Bool), ([] : List (List Square)))).2,
        js2.length ≤ path.length + jumpableCount b piece := by
      refine foldl_inv (fun acc : Bool × List (List Square) => ∀ js2 ∈ acc.2,
        js2.length ≤ path.length + jumpableCount b piece) _ _ _ (by simp) ?_
      intro acc hacc d hd
      by_cases hg : (onBoard (r + d.1) (c + d.2) && onBoard (r + 2 * d.1) (c + 2 * d.2) &&
          svcJumpable piece (pieceAt b (r + d.1) (c + d.2)) &&
          (pieceAt b (r + 2 * d.1) (c + 2 * d.2) == 0) &&
          !(vis.contains (r + d.1, c + d.2, r + 2 * d.1, c + 2 * d.2))) = true
      · rw [if_pos hg]
        intro js2 hjs2
        simp only [Bool.and_eq_true] at hg
        obtain ⟨⟨⟨⟨hgm, hge⟩, hgj⟩, hgl⟩, _⟩ := hg
        have hland : pieceAt b (r + 2 * d.1) (c + 2 * d.2) = 0 := by simpa using hgl
        obtain ⟨hd1, hd2⟩ := mem_svcDiags hd
        obtain ⟨hshn, hcnt⟩ :=
          jumpableCount_svcJumpBoard hsh hob hd1 hgm hge hgj hland
        rcases List.mem_append.mp hjs2 with hjs2 | hjs2
        · exact hacc js2 hjs2
        · rcases List.mem_append.mp hjs2 with hjs2 | hjs2
          · have hdeep := ih piece
              (svcJumpBoard b r c (r + d.1) (c + d.2) (r + 2 * d.1) (c + 2 * d.2) piece)
              (r + 2 * d.1) (c + 2 * d.2) (path ++ [(r + 2 * d.1, c + 2 * d.2)])
              ((r + d.1, c + d.2, r + 2 * d.1, c + 2 * d.2) :: vis) hshn hge js2 hjs2
            rw [List.length_append] at hdeep
            simp only [List.length_singleton] at hdeep
            omega
          · split at hjs2
            · simp at hjs2
            · rw [List.mem_singleton] at hjs2
              subst hjs2
              have hpos : 1 ≤ jumpableCount b piece :=
                sumCountP_pos (fun v => svcJumpable piece v) hsh hgm hgj
              rw [List.length_append]
              simp only [List.length_singleton]
              omega
      · rw [if_neg hg]
        exact hacc
    exact hP js hjs

/-- Depth bound at the top-level find_jumps call: every recorded jump path
visits at most one landing square per jumpable piece. -/
theorem svcFindJumpsTop_length (b : Board) (piece r c : Int)
    (hsh : boardShape b) (hob : onBoard r c = true) :
    ∀ js ∈ (svcFindJumpsTop b piece r c).2, js.length ≤ jumpableCount b piece := by
  intro js hjs
  have := svcFindJumps_length (jumpableCount b piece + 1) piece b r c [] [] hsh hob js hjs
  simpa using this

/-! Claim theorems. -/

/-- C1: for every board and side to move, the full legal-move set computed
by _all_moves_for_turn contains only capture sequences when at least one
capture exists for that side anywhere on the board, and contains only
simple one-step moves when no piece of that side has any capture. -/
theorem allMovesForTurn_forced_capture (s : GameState) (seq : MoveSeq)
    (hmem : seq ∈ allMovesForTurn s) :
    (hasCaptureAnywhere s → isJumpSeq seq) ∧
    (¬hasCaptureAnywhere s → isSimpleMove seq) := by
  constructor
  · intro hcap
    have hne : capturesList s ≠ [] := capturesList_ne_nil_iff.mpr hcap
    have hall : allMovesForTurn s = capturesList s := by
      unfold allMovesForTurn
      rw [if_pos (by simpa using hne)]
    rw [hall] at hmem
    obtain ⟨r, hr, c, hc, hcond, hcapmem⟩ := mem_capturesList.mp hmem
    obtain ⟨_, hlen, hchain, _⟩ := capSeqsFrom_struct hcapmem
    exact ⟨hlen, hchain⟩
  · intro hncap
    have hnil : capturesList s = [] := by
      by_contra hne
      exact hncap (capturesList_ne_nil_iff.mp hne)
    have hall : allMovesForTurn s = simplesList s := by
      unfold allMovesForTurn
      rw [hnil]
      simp
    rw [hall] at hmem
    obtain ⟨r, hr, c, hc, hcond, hsimp⟩ := mem_simplesList.mp hmem
    obtain ⟨dr, dc, hd, hseq, _, _⟩ := mem_simpleMovesFrom hsimp
    obtain ⟨h1, h2⟩ := mem_directionsFor hd
    subst hseq
    refine ⟨rfl, List.chain'_cons.mpr ⟨⟨by simp; omega, by simp; omega⟩, by simp⟩⟩

/-- Board with a player capture available at (5,2) over (4,3), used as a
concrete test state. -/
def witBoardCapture : Board :=
  [[0, 0, 0, 0, 0, 0, 0, 0],
   [0, 0, 0, 0, 0, 0, 0, 0],
   [0, 0, 0, 0, 0, 0, 0, 0],
   [0, 0, 0, 0, 0, 0, 0, 0],
   [0, 0, 0, -1, 0, 0, 0, 0],
   [0, 0, 1, 0, 0, 0, 1, 0],
   [0, 0, 0, 0, 0, 0, 0, 0],
   [0, 0, 0, 0, 0, 0, 0, 0]]

theorem allMovesForTurn_forced_capture_witness :
    isJumpSeq [((5 : Int), (2 : Int)), ((3 : Int), (4 : Int))] :=
  (allMovesForTurn_forced_capture ⟨witBoardCapture, 1, []⟩
    [((5 : Int), (2 : Int)), ((3 : Int), (4 : Int))] (by decide)).1 (by decide)

/-- C2: every capture sequence returned by the move generator is maximal:
it has at least one jump, and after applying the whole sequence (including
the final promotion) the moving piece has no further capture available
from the sequence's final square.  The moving piece is identified by its
rank during the move (the piece argument p of the recursion); a promotion
at the very end cannot extend the chain because the turn ends there. -/
theorem captureSequences_maximal (s : GameState) (r c p : Int) (seq : MoveSeq)
    (hsh : boardShape s.board) (hob : onBoard r c = true)
    (hmem : seq ∈ capSeqsFrom s.board r c p) :
    2 ≤ seq.length ∧ ∃ fr fc : Int, seq.getLast? = some (fr, fc) ∧
      capSeqsFrom (applyMoveSequence s seq).board fr fc p = [] := by
  obtain ⟨fr, fc, hlast, hobf, _, _, hmax⟩ :=
    capSeqs_apply (enemyCount s.board p) s.board r c p seq rfl hsh hob hmem
  refine ⟨(capSeqsFrom_struct hmem).2.1, fr, fc, hlast, ?_⟩
  simp only [applyMoveSequence, hlast]
  exact hmax

/-- Board with a double jump for the player man at (4,4): enemies at (3,3)
and (1,1), landing squares (2,2) and (0,0) empty. -/
def witBoardDouble : Board :=
  [[0, 0, 0, 0, 0, 0, 0, 0],
   [0, -1, 0, 0, 0, 0, 0, 0],
   [0, 0, 0, 0, 0, 0, 0, 0],
   [0, 0, 0, -1, 0, 0, 0, 0],
   [0, 0, 0, 0, 1, 0, 0, 0],
   [0, 0, 0, 0, 0, 0, 0, 0],
   [0, 0, 0, 0, 0, 0, 0, 0],
   [0, 0, 0, 0, 0, 0, 0, 0]]

theorem captureSequences_maximal_witness :
    2 ≤ ([((4 : Int), (4 : Int)), (2, 2), (0, 0)] : MoveSeq).length ∧
    ∃ fr fc : Int,
      ([((4 : Int), (4 : Int)), (2, 2), (0, 0)] : MoveSeq).getLast? = some (fr, fc) ∧
      capSeqsFrom (applyMoveSequence ⟨witBoardDouble, 1, []⟩
        [((4 : Int), (4 : Int)), (2, 2), (0, 0)]).board fr fc 1 = [] :=
  captureSequences_maximal ⟨witBoardDouble, 1, []⟩ 4 4 1
    [((4 : Int), (4 : Int)), (2, 2), (0, 0)] (by decide) (by decide) (by decide)

/-- C5: undo immediately after apply_move_sequence restores exactly the
board and the turn that held before the application. -/
theorem undo_applyMoveSequence (s : GameState) (seq : MoveSeq) :
    (undo (applyMoveSequence s seq)).board = s.board ∧
    (undo (applyMoveSequence s seq)).turn = s.turn := by
  unfold undo applyMoveSequence
  simp only [List.getLast?_concat]
  refine ⟨by trivial, by ring⟩

/-- C9: best_ai_move leaves the caller's session untouched: the board, the
turn and the history it returns alongside the chosen move are exactly the
ones it was given (minimax only ever applies candidate moves to copies of
the state). -/
theorem bestAiMove_preserves_session (s : GameState) (depth : Nat) :
    ((bestAiMove s depth).2).board = s.board ∧
    ((bestAiMove s depth).2).turn = s.turn ∧
    ((bestAiMove s depth).2).history = s.history :=
  ⟨rfl, rfl, rfl⟩

/-- Board for the C10 counterexample: a P1 king (services.py value 3) at
(4,4) with a P1 man of its own side (value 1) at (3,3) and (2,2) empty. -/
def witBoardOwnJump : Board :=
  [[0, 0, 0, 0, 0, 0, 0, 0],
   [0, 0, 0, 0, 0, 0, 0, 0],
   [0, 0, 0, 0, 0, 0, 0, 0],
   [0, 0, 0, 1, 0, 0, 0, 0],
   [0, 0, 0, 0, 3, 0, 0, 0],
   [0, 0, 0, 0, 0, 0, 0, 0],
   [0, 0, 0, 0, 0, 0, 0, 0],
   [0, 0, 0, 0, 0, 0, 0, 0]]

/-- C10 counterexample, on find_jumps of services.py: the jumped-square
test excludes only EMPTY, the mover's value and value + 2, so the P1 king
at (4,4) jumps the P1 man of its own side at (3,3): find_jumps records the
path [(2,2)], the jumped square held a same-side piece, and the board copy
handed to the recursive call has exactly the same opponent (P2) piece
count as before - the claimed strict decrease of the opponent's piece
count fails. -/
theorem svcFindJumps_jumps_own_man :
    (svcFindJumpsTop witBoardOwnJump 3 4 4).2 = [[((2 : Int), (2 : Int))]] ∧
    pieceAt witBoardOwnJump 3 3 = 1 ∧
    svcJumpable 3 (pieceAt witBoardOwnJump 3 3) = true ∧
    svcOpponentCount (svcJumpBoard witBoardOwnJump 4 4 3 3 2 2 3) 3 =
      svcOpponentCount witBoardOwnJump 3 := by
  decide

/-- C10 (amended): both capture recursions terminate by removing the
jumped piece from a copy of the board, but with different measures.  In
main.py's _capture_sequences_from the jumped piece is always an opposing
piece, every recursive call strictly decreases the opponent's piece count,
chains are bounded by it, every jumped square holds an on-board enemy and
no square is jumped twice in a chain - all independent of the
never-consulted visited set.  In services.py's find_jumps the jumped piece
need not be an opposing one (a king may jump its own man, see the
counterexample), so the measure is instead the number of jumpable cells -
values outside {EMPTY, piece, piece + 2} - which every call strictly
decreases, bounding each recorded path's length. -/
theorem captureRecursion_depth_bounded :
    (∀ (b : Board) (r c p : Int) (seq : MoveSeq),
      boardShape b → onBoard r c = true → isEnemy p (pieceAt b r c) = false →
      seq ∈ capSeqsFrom b r c p →
      seq.length ≤ enemyCount b p + 1 ∧
      (∃ dr dc : Int, (dr, dc) ∈ directionsFor p ∧
        enemyCount (jumpBoard b r c (r + dr) (c + dc) (r + 2 * dr) (c + 2 * dc)) p + 1 =
          enemyCount b p) ∧
      (∀ m ∈ midsOf seq, onBoard m.1 m.2 = true ∧ isEnemy p (pieceAt b m.1 m.2) = true) ∧
      (midsOf seq).Nodup) ∧
    (∀ (b : Board) (piece r c : Int),
      boardShape b → onBoard r c = true →
      ∀ js ∈ (svcFindJumpsTop b piece r c).2, js.length ≤ jumpableCount b piece) := by
  constructor
  · intro b r c p seq hsh hob hor hmem
    obtain ⟨hlen, hmids, hnd⟩ :=
      capSeqs_mids (enemyCount b p) b r c p seq rfl hsh hob hor hmem
    obtain ⟨dr, dc, hd, _, _, _, _, _, _, _, hcnt, _⟩ := mem_capSeqsFrom_inv hsh hob hmem
    exact ⟨hlen, ⟨dr, dc, hd, hcnt⟩, hmids, hnd⟩
  · intro b piece r c hsh hob
    exact svcFindJumpsTop_length b piece r c hsh hob

theorem captureRecursion_depth_bounded_witness :
    (([((4 : Int), (4 : Int)), (2, 2), (0, 0)] : MoveSeq).length ≤
      enemyCount witBoardDouble 1 + 1 ∧
    (∃ dr dc : Int, (dr, dc) ∈ directionsFor 1 ∧
      enemyCount (jumpBoard witBoardDouble 4 4 (4 + dr) (4 + dc)
        (4 + 2 * dr) (4 + 2 * dc)) 1 + 1 = enemyCount witBoardDouble 1) ∧
    (∀ m ∈ midsOf ([((4 : Int), (4 : Int)), (2, 2), (0, 0)] : MoveSeq),
      onBoard m.1 m.2 = true ∧ isEnemy 1 (pieceAt witBoardDouble m.1 m.2) = true) ∧
    (midsOf ([((4 : Int), (4 : Int)), (2, 2), (0, 0)] : MoveSeq)).Nodup) ∧
    ([((2 : Int), (2 : Int))] : List Square).length ≤ jumpableCount witBoardOwnJump 3 :=
  ⟨captureRecursion_depth_bounded.1 witBoardDouble 4 4 1
      [((4 : Int), (4 : Int)), (2, 2), (0, 0)] (by decide) (by decide) (by decide) (by decide),
    captureRecursion_depth_bounded.2 witBoardOwnJump 3 4 4 (by decide) (by decide)
      [((2 : Int), (2 : Int))] (by decide)⟩

/-- C3 counterexample: on a board where the player piece at (5,2) has a
capture, the origin-restricted query at (5,6) still returns plain simple
moves, so the global forced-capture rule claimed for get_valid_moves does
not hold: a capture exists for the side, yet a returned sequence is not a
capture sequence. -/
theorem getValidMoves_not_globally_forced :
    hasCaptureAnywhere ⟨witBoardCapture, 1, []⟩ ∧
    [((5 : Int), (6 : Int)), (4, 5)] ∈ getValidMoves ⟨witBoardCapture, 1, []⟩ 5 6 ∧
    ¬isJumpSeq [((5 : Int), (6 : Int)), (4, 5)] := by
  decide

/-- C3 (amended): get_valid_moves returns the empty set when the square is
empty or holds an opposing piece, and returns only capture sequences when
the piece on the queried square itself has at least one capture; the
forced-capture restriction is local to the origin square (captures
elsewhere on the board do not suppress its simple moves). -/
theorem getValidMoves_local_rules (s : GameState) (r c : Int) :
    ((pieceAt s.board r c = 0 ∨ (s.turn = 1 ∧ pieceAt s.board r c < 0) ∨
        (s.turn = -1 ∧ 0 < pieceAt s.board r c)) → getValidMoves s r c = []) ∧
    (capSeqsFrom s.board r c (pieceAt s.board r c) ≠ [] →
      ∀ seq ∈ getValidMoves s r c, isJumpSeq seq) := by
  constructor
  · intro h
    unfold getValidMoves
    have hcond : (pieceAt s.board r c == 0 ||
        (s.turn == 1 && isAiPiece (pieceAt s.board r c)) ||
        (s.turn == -1 && isPlayerPiece (pieceAt s.board r c))) = true := by
      rcases h with h | ⟨ht, hp⟩ | ⟨ht, hp⟩
      · simp [h]
      · simp [ht, isAiPiece, hp]
      · simp [ht, isPlayerPiece, hp]
    rw [if_pos hcond]
  · intro hne seq hseq
    unfold getValidMoves at hseq
    dsimp only at hseq
    split_ifs at hseq with h1 h2
    · simp at hseq
    · obtain ⟨_, hlen, hchain, _⟩ := capSeqsFrom_struct hseq
      exact ⟨hlen, hchain⟩
    · exact absurd (by simpa using h2) (by simpa using hne)

theorem getValidMoves_local_rules_witness :
    ∀ seq ∈ getValidMoves ⟨witBoardCapture, 1, []⟩ 5 2, isJumpSeq seq :=
  (getValidMoves_local_rules ⟨witBoardCapture, 1, []⟩ 5 2).2 (by decide)

/-- C4 counterexample: apply_move_sequence performs no validation at all:
from the initial position with the player to move, applying the sequence
that moves the AI man from (2,1) to (3,2) - a wrong-side move, absent from
the legal-move set - mutates the board anyway, so rule violations are not
detected before mutation. -/
theorem applyMoveSequence_no_validation :
    [((2 : Int), (1 : Int)), (3, 2)] ∉ allMovesForTurn resetState ∧
    (applyMoveSequence resetState [((2 : Int), (1 : Int)), (3, 2)]).board ≠
      resetState.board := by
  decide

/-- C4 (amended): the services-layer make_move rejects out-of-range
coordinates and an empty origin before touching the board, returning an
error with the board unchanged; but neither side-to-move nor sequence
legality is checked there, and the main-engine apply_move_sequence
validates nothing (see the counterexample). -/
theorem svcMakeMove_validates_before_mutation (b : Board) (r0 c0 r1 c1 : Int)
    (h : ¬(onBoard r0 c0 = true ∧ onBoard r1 c1 = true) ∨ pieceAt b r0 c0 = 0) :
    (svcMakeMove b r0 c0 r1 c1).2 = b ∧ (svcMakeMove b r0 c0 r1 c1).1 ≠ none := by
  unfold svcMakeMove
  by_cases hr : (onBoard r0 c0 && onBoard r1 c1) = true
  · have hempty : pieceAt b r0 c0 = 0 := by
      rcases h with h | h
      · exact absurd (Bool.and_eq_true_iff.mp hr) h
      · exact h
    rw [if_neg (by rw [hr]; simp)]
    dsimp only
    rw [if_pos (by simpa using hempty)]
    exact ⟨rfl, by simp⟩
  · have hx : (onBoard r0 c0 && onBoard r1 c1) = false := Bool.eq_false_iff.mpr hr
    rw [if_pos (by rw [hx]; rfl)]
    exact ⟨rfl, by simp⟩

theorem svcMakeMove_validates_before_mutation_witness :
    (svcMakeMove svcInitBoard 9 0 5 4).2 = svcInitBoard ∧
    (svcMakeMove svcInitBoard 9 0 5 4).1 ≠ none :=
  svcMakeMove_validates_before_mutation svcInitBoard 9 0 5 4 (by decide)

/-! The evaluation function as a material sum (C7). -/

/-- The contribution of one cell to the evaluate closure's score. -/
def cellScore (v : Int) : Int :=
  if v == 0 then 0
  else (if isAiPiece v then 1 else -1) * (if isKingPiece v then 5 else 3)

/-- Number of cells of the board holding exactly the value v. -/
def countVal (b : Board) (v : Int) : Nat :=
  (b.map (fun row => row.count v)).sum

/-- The material sum the specification describes: +3 per AI man, +5 per AI
king, -3 per player man, -5 per player king. -/
def materialSpec (b : Board) : Int :=
  3 * (countVal b (-1) : Int) + 5 * (countVal b (-2) : Int) -
    3 * (countVal b 1 : Int) - 5 * (countVal b 2 : Int)

/-- Every cell of the board carries one of the five Piece enum values (the
precondition under which the Python Piece(val) conversion succeeds). -/
def validCells (b : Board) : Prop :=
  ∀ row ∈ b, ∀ v ∈ row, v = 0 ∨ v = 1 ∨ v = 2 ∨ v = -1 ∨ v = -2

instance (b : Board) : Decidable (validCells b) :=
  inferInstanceAs (Decidable (∀ row ∈ b, ∀ v ∈ row, v = 0 ∨ v = 1 ∨ v = 2 ∨ v = -1 ∨ v = -2))

theorem foldl_cellScore (l : List Int) : ∀ a : Int,
    l.foldl (fun score v =>
      if v == 0 then score
      else score + (if isAiPiece v then 1 else -1) * (if isKingPiece v then 5 else 3)) a =
    a + (l.map cellScore).sum := by
  induction l with
  | nil => intro a; simp
  | cons v t ih =>
    intro a
    rw [List.foldl_cons, List.map_cons, List.sum_cons, ih]
    unfold cellScore
    by_cases hv : (v == 0) = true
    · rw [if_pos hv, if_pos hv]
      ring
    · rw [if_neg hv, if_neg hv]
      ring

theorem evaluate_eq_sum (b : Board) :
    evaluate b = (b.map (fun row => (row.map cellScore).sum)).sum := by
  unfold evaluate
  suffices h : ∀ a : Int, b.foldl (fun score row =>
      row.foldl (fun score v =>
        if v == 0 then score
        else score + (if isAiPiece v then 1 else -1) * (if isKingPiece v then 5 else 3))
        score) a =
      a + (b.map (fun row => (row.map cellScore).sum)).sum by
    have := h 0
    simpa using this
  induction b with
  | nil => intro a; simp
  | cons row t ih =>
    intro a
    rw [List.foldl_cons, List.map_cons, List.sum_cons, ih, foldl_cellScore]
    ring

theorem rowScore_eq (l : List Int) (h : ∀ v ∈ l, v = 0 ∨ v = 1 ∨ v = 2 ∨ v = -1 ∨ v = -2) :
    (l.map cellScore).sum =
      3 * (l.count (-1) : Int) + 5 * (l.count (-2) : Int) -
        3 * (l.count 1 : Int) - 5 * (l.count 2 : Int) := by
  induction l with
  | nil => simp
  | cons v t ih =>
    have hv := h v (List.mem_cons_self v t)
    have ht := ih (fun w hw => h w (List.mem_cons_of_mem v hw))
    rw [List.map_cons, List.sum_cons, ht]
    rcases hv with hv | hv | hv | hv | hv <;> subst hv <;>
      simp [List.count_cons, cellScore, isAiPiece, isKingPiece] <;> ring

/-- C7: the static evaluation used by the search equals the signed
material sum: each man is worth 3 and each king 5, counted +1 for AI
pieces and -1 for player pieces, with no other term. -/
theorem evaluate_eq_materialSpec (b : Board) (h : validCells b) :
    evaluate b = materialSpec b := by
  rw [evaluate_eq_sum]
  unfold materialSpec countVal
  induction b with
  | nil => simp
  | cons row t ih =>
    have hrow := h row (List.mem_cons_self row t)
    have ht : validCells t := fun r hr => h r (List.mem_cons_of_mem row hr)
    have := ih ht
    rw [List.map_cons, List.sum_cons, rowScore_eq row hrow]
    simp only [List.map_cons, List.sum_cons] at this ⊢
    push_cast at this ⊢
    omega

theorem evaluate_eq_materialSpec_witness :
    evaluate initBoard = materialSpec initBoard :=
  evaluate_eq_materialSpec initBoard (by decide)

/-! The playable-squares invariant (C8). -/

theorem playableInv_int {b : Board} (h : playableInv b) {x y : Int}
    (hob : onBoard x y = true) (hpar : (x + y) % 2 = 0) : pieceAt b x y = 0 := by
  obtain ⟨h1, h2, h3, h4⟩ := onBoard_iff.mp hob
  have hx : ((x.toNat : Int)).toNat = x.toNat := by omega
  have hy : ((y.toNat : Int)).toNat = y.toNat := by omega
  rw [pieceAt_congrCell hx.symm hy.symm]
  exact h x.toNat (by omega) y.toNat (by omega) (by omega)

theorem playableInv_of {b : Board}
    (h : ∀ x y : Int, onBoard x y = true → (x + y) % 2 = 0 → pieceAt b x y = 0) :
    playableInv b := by
  intro r hr c hc hpar
  exact h r c (onBoard_iff.mpr ⟨by omega, by omega, by omega, by omega⟩) (by omega)

theorem playableInv_setPiece_zero {b : Board} {r c : Int}
    (hsh : boardShape b) (hob : onBoard r c = true) (h : playableInv b) :
    playableInv (setPiece b r c 0) := by
  refine playableInv_of ?_
  intro x y hobxy hpar
  by_cases hcell : x.toNat = r.toNat ∧ y.toNat = c.toNat
  · rw [pieceAt_congrCell hcell.1 hcell.2]
    exact pieceAt_setPiece_self hsh hob
  · rw [pieceAt_setPiece_ne ((not_and_or.mp hcell).imp Ne.symm Ne.symm)]
    exact playableInv_int h hobxy hpar

theorem playableInv_setPiece_odd {b : Board} {r c v : Int}
    (hob : onBoard r c = true) (hodd : (r + c) % 2 = 1) (h : playableInv b) :
    playableInv (setPiece b r c v) := by
  refine playableInv_of ?_
  intro x y hobxy hpar
  by_cases hcell : x.toNat = r.toNat ∧ y.toNat = c.toNat
  · exfalso
    obtain ⟨hx0, hx8, hy0, hy8⟩ := onBoard_iff.mp hobxy
    obtain ⟨hr0, hr8, hc0, hc8⟩ := onBoard_iff.mp hob
    omega
  · rw [pieceAt_setPiece_ne ((not_and_or.mp hcell).imp Ne.symm Ne.symm)]
    exact playableInv_int h hobxy hpar

theorem playableInv_promote {b : Board} {fr fc : Int}
    (hob : onBoard fr fc = true) (hodd : (fr + fc) % 2 = 1) (h : playableInv b) :
    playableInv (promote b fr fc) := by
  unfold promote
  dsimp only
  split_ifs <;>
    first
      | exact h
      | exact playableInv_setPiece_odd hob hodd h

theorem mem_of_getLastEq {l : MoveSeq} {a : Square} (h : l.getLast? = some a) : a ∈ l := by
  have hx : a ∈ l.getLast? := by rw [h]; rfl
  obtain ⟨hne, heq⟩ := List.mem_getLast?_eq_getLast hx
  rw [heq]
  exact List.getLast_mem hne

theorem chain_all_odd : ∀ (rest : MoveSeq) (a : Square),
    List.Chain' stepIsJump (a :: rest) → (a.1 + a.2) % 2 = 1 →
    ∀ q ∈ a :: rest, (q.1 + q.2) % 2 = 1 := by
  intro rest
  induction rest with
  | nil =>
    intro a _ ha q hq
    rw [List.mem_singleton] at hq
    subst hq
    exact ha
  | cons b t ih =>
    intro a hchain ha q hq
    obtain ⟨hab, hrest⟩ := List.chain'_cons.mp hchain
    have hb : (b.1 + b.2) % 2 = 1 := by
      obtain ⟨h1, h2⟩ := hab
      omega
    rcases List.mem_cons.mp hq with hq | hq
    · subst hq; exact ha
    · exact ih b hrest hb q hq

theorem allMoves_squares {s : GameState} {seq : MoveSeq}
    (hinv : playableInv s.board) (hmem : seq ∈ allMovesForTurn s) :
    ∀ q ∈ seq, onBoard q.1 q.2 = true ∧ (q.1 + q.2) % 2 = 1 := by
  obtain ⟨r, hr, c, hc, hcond, hcase⟩ := mem_allMovesForTurn hmem
  have hobrc : onBoard (r : Nat) (c : Nat) = true :=
    onBoard_iff.mpr ⟨by omega, by omega, by omega, by omega⟩
  have hp : pieceAt s.board (r : Nat) (c : Nat) ≠ 0 := by
    have := (Bool.and_eq_true_iff.mp hcond).1
    simpa using this
  have hodd : (((r : Nat) : Int) + ((c : Nat) : Int)) % 2 = 1 := by
    by_contra hco
    exact hp (playableInv_int hinv hobrc (by omega))
  rcases hcase with hcap | hsimp
  · obtain ⟨hhead, _, hchain, hsq⟩ := capSeqsFrom_struct hcap
    intro q hq
    refine ⟨hsq hobrc q hq, ?_⟩
    cases seq with
    | nil => simp at hhead
    | cons a rest =>
      have ha : a = ((r : Int), (c : Int)) := by simpa using hhead
      subst ha
      exact chain_all_odd rest _ hchain hodd q hq
  · obtain ⟨dr, dc, hd, hseq, hobd, _⟩ := mem_simpleMovesFrom hsimp
    obtain ⟨h1, h2⟩ := mem_directionsFor hd
    subst hseq
    intro q hq
    rcases List.mem_pair.mp hq with hq | hq <;> subst hq
    · exact ⟨hobrc, hodd⟩
    · exact ⟨hobd, by omega⟩

theorem applyLoop_playable : ∀ (seq : MoveSeq) (b : Board), boardShape b → playableInv b →
    (∀ q ∈ seq, onBoard q.1 q.2 = true ∧ (q.1 + q.2) % 2 = 1) →
    playableInv (applyLoop b seq) ∧ boardShape (applyLoop b seq) := by
  intro seq
  induction seq with
  | nil => intro b hsh hinv _; exact ⟨hinv, hsh⟩
  | cons x rest ih =>
    intro b hsh hinv hsq
    cases rest with
    | nil => exact ⟨hinv, hsh⟩
    | cons y t =>
      obtain ⟨hobx, hoddx⟩ := hsq x (List.mem_cons_self x _)
      obtain ⟨hoby, hoddy⟩ := hsq y (List.mem_cons_of_mem x (List.mem_cons_self y t))
      have hstep : playableInv (stepBoard b x y) ∧ boardShape (stepBoard b x y) := by
        unfold stepBoard
        dsimp only
        obtain ⟨hx0, hx8, hy0, hy8⟩ := onBoard_iff.mp hobx
        obtain ⟨hu0, hu8, hv0, hv8⟩ := onBoard_iff.mp hoby
        have hobmid : onBoard ((x.1 + y.1) / 2) ((x.2 + y.2) / 2) = true :=
          onBoard_iff.mpr ⟨by omega, by omega, by omega, by omega⟩
        by_cases hc2 : ((y.1 - x.1).natAbs == 2) = true
        · rw [if_pos hc2]
          have i1 := playableInv_setPiece_zero hsh hobmid hinv
          have s1 := boardShape_setPiece (v := (0 : Int)) hsh hobmid
          have i2 := playableInv_setPiece_zero s1 hobx i1
          have s2 := boardShape_setPiece (v := (0 : Int)) s1 hobx
          exact ⟨playableInv_setPiece_odd hoby hoddy i2,
            boardShape_setPiece s2 hoby⟩
        · rw [if_neg hc2]
          have i2 := playableInv_setPiece_zero hsh hobx hinv
          have s2 := boardShape_setPiece (v := (0 : Int)) hsh hobx
          exact ⟨playableInv_setPiece_odd hoby hoddy i2,
            boardShape_setPiece s2 hoby⟩
      exact ih (stepBoard b x y) hstep.2 hstep.1
        (fun q hq => hsq q (List.mem_cons_of_mem x hq))

/-- C8: pieces occupy only playable squares (row + column odd): the initial
setup establishes the invariant and applying any move sequence produced by
the move generator preserves it, so it holds of every reachable board. -/
theorem playable_squares_invariant :
    playableInv initBoard ∧
    ∀ (s : GameState) (seq : MoveSeq), boardShape s.board → playableInv s.board →
      seq ∈ allMovesForTurn s → playableInv (applyMoveSequence s seq).board := by
  constructor
  · decide
  · intro s seq hsh hinv hmem
    have hsq := allMoves_squares hinv hmem
    obtain ⟨hloop, hshloop⟩ := applyLoop_playable seq s.board hsh hinv hsq
    unfold applyMoveSequence
    dsimp only
    cases hlast : seq.getLast? with
    | none => exact hloop
    | some f =>
      obtain ⟨hobf, hoddf⟩ := hsq f (mem_of_getLastEq hlast)
      exact playableInv_promote hobf hoddf hloop

theorem playable_squares_invariant_witness :
    playableInv (applyMoveSequence resetState [((5 : Int), (2 : Int)), (4, 3)]).board :=
  playable_squares_invariant.2 resetState [((5 : Int), (2 : Int)), (4, 3)]
    (by decide) (by decide) (by decide)

/-! Promotion behaviour (C6). -/

theorem promote_spec {b : Board} {fr fc : Int} (hsh : boardShape b)
    (hob : onBoard fr fc = true) :
    (pieceAt b fr fc = 1 →
      (fr = 0 → pieceAt (promote b fr fc) fr fc = 2) ∧
      (fr ≠ 0 → pieceAt (promote b fr fc) fr fc = 1)) ∧
    (pieceAt b fr fc = -1 →
      (fr = 7 → pieceAt (promote b fr fc) fr fc = -2) ∧
      (fr ≠ 7 → pieceAt (promote b fr fc) fr fc = -1)) ∧
    (pieceAt b fr fc = 2 → pieceAt (promote b fr fc) fr fc = 2) ∧
    (pieceAt b fr fc = -2 → pieceAt (promote b fr fc) fr fc = -2) := by
  refine ⟨?_, ?_, ?_, ?_⟩
  · intro h1
    constructor
    · intro h0
      unfold promote
      dsimp only
      rw [h1]
      rw [if_pos (by decide : isManPiece 1 = true)]
      rw [if_pos (by subst h0; decide)]
      exact pieceAt_setPiece_self hsh hob
    · intro h0
      unfold promote
      dsimp only
      rw [h1]
      rw [if_pos (by decide : isManPiece 1 = true)]
      rw [if_neg (by simp [h0])]
      rw [if_neg (by simp [isAiPiece])]
      exact h1
  · intro h1
    constructor
    · intro h0
      unfold promote
      dsimp only
      rw [h1]
      rw [if_pos (by decide : isManPiece (-1) = true)]
      rw [if_neg (by simp [isPlayerPiece])]
      rw [if_pos (by subst h0; decide)]
      exact pieceAt_setPiece_self hsh hob
    · intro h0
      unfold promote
      dsimp only
      rw [h1]
      rw [if_pos (by decide : isManPiece (-1) = true)]
      rw [if_neg (by simp [isPlayerPiece])]
      rw [if_neg (by simp [h0])]
      exact h1
  · intro h1
    unfold promote
    dsimp only
    rw [h1]
    rw [if_neg (by decide : ¬(isManPiece 2 = true))]
    exact h1
  · intro h1
    unfold promote
    dsimp only
    rw [h1]
    rw [if_neg (by decide : ¬(isManPiece (-2) = true))]
    exact h1

theorem pieceAt_promote_ne {b : Board} {fr fc x y : Int} (hobf : onBoard fr fc = true)
    (hobx : onBoard x y = true) (hne : ¬(x = fr ∧ y = fc)) :
    pieceAt (promote b fr fc) x y = pieceAt b x y := by
  obtain ⟨h1, h2, h3, h4⟩ := onBoard_iff.mp hobf
  obtain ⟨h5, h6, h7, h8⟩ := onBoard_iff.mp hobx
  have hcell : fr.toNat ≠ x.toNat ∨ fc.toNat ≠ y.toNat := by
    rcases not_and_or.mp hne with h | h
    · left; omega
    · right; omega
  unfold promote
  dsimp only
  split_ifs <;>
    first
      | rfl
      | exact pieceAt_setPiece_ne hcell

theorem stepBoard_simple {b : Board} {x y : Square}
    (h1 : (y.1 - x.1).natAbs ≠ 2) :
    stepBoard b x y = setPiece (setPiece b x.1 x.2 0) y.1 y.2 (pieceAt b x.1 x.2) := by
  unfold stepBoard
  dsimp only
  rw [if_neg (by simpa using h1)]

/-- C6: after apply_move_sequence completes on a generated move, the moving
piece arrives at the final square with its original value (no intermediate
promotion happens during the loop), the promotion step rewrites at most the
final square, a man resting on its opponent's back rank (row 0 for the
player, row 7 for the AI) is converted to the corresponding king, a man not
on its back rank stays a man, and a king is never demoted. -/
theorem applyMoveSequence_promotion (s : GameState) (seq : MoveSeq)
    (hsh : boardShape s.board) (hmem : seq ∈ allMovesForTurn s) :
    ∃ r c fr fc : Int, seq.head? = some (r, c) ∧ seq.getLast? = some (fr, fc) ∧
      pieceAt (applyLoop s.board seq) fr fc = pieceAt s.board r c ∧
      (∀ x y : Int, onBoard x y = true → ¬(x = fr ∧ y = fc) →
        pieceAt (applyMoveSequence s seq).board x y =
          pieceAt (applyLoop s.board seq) x y) ∧
      (pieceAt s.board r c = 1 →
        (fr = 0 → pieceAt (applyMoveSequence s seq).board fr fc = 2) ∧
        (fr ≠ 0 → pieceAt (applyMoveSequence s seq).board fr fc = 1)) ∧
      (pieceAt s.board r c = -1 →
        (fr = 7 → pieceAt (applyMoveSequence s seq).board fr fc = -2) ∧
        (fr ≠ 7 → pieceAt (applyMoveSequence s seq).board fr fc = -1)) ∧
      (pieceAt s.board r c = 2 → pieceAt (applyMoveSequence s seq).board fr fc = 2) ∧
      (pieceAt s.board r c = -2 → pieceAt (applyMoveSequence s seq).board fr fc = -2) := by
  obtain ⟨r0, hr0, c0, hc0, hcond, hcase⟩ := mem_allMovesForTurn hmem
  have hobrc : onBoard ((r0 : Nat) : Int) ((c0 : Nat) : Int) = true :=
    onBoard_iff.mpr ⟨by omega, by omega, by omega, by omega⟩
  rcases hcase with hcap | hsimp
  · obtain ⟨fr, fc, hlast, hobf, hshL, hcarry, _⟩ :=
      capSeqs_apply (enemyCount s.board (pieceAt s.board (r0 : Nat) (c0 : Nat)))
        s.board (r0 : Nat) (c0 : Nat) (pieceAt s.board (r0 : Nat) (c0 : Nat)) seq rfl
        hsh hobrc hcap
    have hhead := (capSeqsFrom_struct hcap).1
    obtain ⟨hspec1, hspec2, hspec3, hspec4⟩ := promote_spec hshL hobf
    refine ⟨(r0 : Nat), (c0 : Nat), fr, fc, hhead, hlast, hcarry, ?_, ?_, ?_, ?_, ?_⟩
    · intro x y hobx hne
      simp only [applyMoveSequence, hlast]
      exact pieceAt_promote_ne hobf hobx hne
    · intro hv
      simp only [applyMoveSequence, hlast]
      exact hspec1 (hcarry.trans hv)
    · intro hv
      simp only [applyMoveSequence, hlast]
      exact hspec2 (hcarry.trans hv)
    · intro hv
      simp only [applyMoveSequence, hlast]
      exact hspec3 (hcarry.trans hv)
    · intro hv
      simp only [applyMoveSequence, hlast]
      exact hspec4 (hcarry.trans hv)
  · obtain ⟨dr, dc, hd, hseq, hobd, _⟩ := mem_simpleMovesFrom hsimp
    obtain ⟨hd1, hd2⟩ := mem_directionsFor hd
    subst hseq
    have hnot2 : (((r0 : Int) + dr) - (r0 : Int)).natAbs ≠ 2 := by
      simp only [add_sub_cancel_left]
      omega
    have hstep : applyLoop s.board [((r0 : Int), (c0 : Int)), ((r0 : Int) + dr, (c0 : Int) + dc)] =
        setPiece (setPiece s.board (r0 : Int) (c0 : Int) 0)
          ((r0 : Int) + dr) ((c0 : Int) + dc) (pieceAt s.board (r0 : Int) (c0 : Int)) := by
      show stepBoard s.board ((r0 : Int), (c0 : Int)) ((r0 : Int) + dr, (c0 : Int) + dc) = _
      exact stepBoard_simple hnot2
    have hsh1 : boardShape (setPiece s.board (r0 : Int) (c0 : Int) 0) :=
      boardShape_setPiece hsh hobrc
    have hshL : boardShape (applyLoop s.board
        [((r0 : Int), (c0 : Int)), ((r0 : Int) + dr, (c0 : Int) + dc)]) := by
      rw [hstep]
      exact boardShape_setPiece hsh1 hobd
    have hcarry : pieceAt (applyLoop s.board
        [((r0 : Int), (c0 : Int)), ((r0 : Int) + dr, (c0 : Int) + dc)])
        ((r0 : Int) + dr) ((c0 : Int) + dc) = pieceAt s.board (r0 : Int) (c0 : Int) := by
      rw [hstep]
      exact pieceAt_setPiece_self hsh1 hobd
    obtain ⟨hspec1, hspec2, hspec3, hspec4⟩ := promote_spec hshL hobd
    refine ⟨(r0 : Nat), (c0 : Nat), (r0 : Int) + dr, (c0 : Int) + dc, rfl, rfl, hcarry,
      ?_, ?_, ?_, ?_, ?_⟩
    · intro x y hobx hne
      simp only [applyMoveSequence]
      exact pieceAt_promote_ne hobd hobx hne
    · intro hv
      simp only [applyMoveSequence]
      exact hspec1 (hcarry.trans hv)
    · intro hv
      simp only [applyMoveSequence]
      exact hspec2 (hcarry.trans hv)
    · intro hv
      simp only [applyMoveSequence]
      exact hspec3 (hcarry.trans hv)
    · intro hv
      simp only [applyMoveSequence]
      exact hspec4 (hcarry.trans hv)

/-- Board with a single player man one step away from the back rank. -/
def witBoardPromo : Board :=
  [[0, 0, 0, 0, 0, 0, 0, 0],
   [0, 0, 1, 0, 0, 0, 0, 0],
   [0, 0, 0, 0, 0, 0, 0, 0],
   [0, 0, 0, 0, 0, 0, 0, 0],
   [0, 0, 0, 0, 0, 0, 0, 0],
   [0, 0, 0, 0, 0, 0, 0, 0],
   [0, 0, 0, 0, 0, 0, 0, 0],
   [0, 0, 0, 0, 0, 0, 0, 0]]

theorem applyMoveSequence_promotion_witness :
    ∃ r c fr fc : Int,
      ([((1 : Int), (2 : Int)), (0, 1)] : MoveSeq).head? = some (r, c) ∧
      ([((1 : Int), (2 : Int)), (0, 1)] : MoveSeq).getLast? = some (fr, fc) ∧
      pieceAt (applyLoop witBoardPromo [((1 : Int), (2 : Int)), (0, 1)]) fr fc =
        pieceAt witBoardPromo r c ∧
      (∀ x y : Int, onBoard x y = true → ¬(x = fr ∧ y = fc) →
        pieceAt (applyMoveSequence ⟨witBoardPromo, 1, []⟩
          [((1 : Int), (2 : Int)), (0, 1)]).board x y =
          pieceAt (applyLoop witBoardPromo [((1 : Int), (2 : Int)), (0, 1)]) x y) ∧
      (pieceAt witBoardPromo r c = 1 →
        (fr = 0 → pieceAt (applyMoveSequence ⟨witBoardPromo, 1, []⟩
          [((1 : Int), (2 : Int)), (0, 1)]).board fr fc = 2) ∧
        (fr ≠ 0 → pieceAt (applyMoveSequence ⟨witBoardPromo, 1, []⟩
          [((1 : Int), (2 : Int)), (0, 1)]).board fr fc = 1)) ∧
      (pieceAt witBoardPromo r c = -1 →
        (fr = 7 → pieceAt (applyMoveSequence ⟨witBoardPromo, 1, []⟩
          [((1 : Int), (2 : Int)), (0, 1)]).board fr fc = -2) ∧
        (fr ≠ 7 → pieceAt (applyMoveSequence ⟨witBoardPromo, 1, []⟩
          [((1 : Int), (2 : Int)), (0, 1)]).board fr fc = -1)) ∧
      (pieceAt witBoardPromo r c = 2 →
        pieceAt (applyMoveSequence ⟨witBoardPromo, 1, []⟩
          [((1 : Int), (2 : Int)), (0, 1)]).board fr fc = 2) ∧
      (pieceAt witBoardPromo r c = -2 →
        pieceAt (applyMoveSequence ⟨witBoardPromo, 1, []⟩
          [((1 : Int), (2 : Int)), (0, 1)]).board fr fc = -2) :=
  applyMoveSequence_promotion ⟨witBoardPromo, 1, []⟩ [((1 : Int), (2 : Int)), (0, 1)]
    (by decide) (by decide)

end Draughts
